import Mathlib

/-!
Verification of the process-monitor view core (agenttrace repository,
`views/process-monitor/src/index.ts`).

This file shallowly embeds the state-synchronization and windowing core of the
view: the duration classifier (`durClass`, `barPct`), the timeline tick engine
(`tlTicks`), the zoom entry points (`clickZoomApply`, `dragUpApply`,
`blockZoomRange`, `sessionZoomRange`), the agent-row store with its event
handlers, the on-demand data caches with their fetch guards, and the hierarchy
flattener (`buildFlat`).

Modelling conventions:
* JavaScript numbers holding millisecond instants are modelled as `ℚ` where
  real-valued arithmetic occurs (pixel mapping, padding with `* 0.5`), and as
  `ℕ`/`ℤ` where the source only ever holds integers.
* ISO timestamp strings are modelled by their parsed millisecond value: a
  falsy/absent timestamp is `Option.none`, `new Date(ts).getTime()` is the
  carried value.
* JavaScript `Map`/`Set` become association lists with `aset`/`adel` mirroring
  `Map.set` (replace in place, else append) and `Map.delete`.
* Asynchronous fetches are modelled by explicit request emission: every
  operation returns the list of outbound requests it issues, and the state
  tracks the multiset of in-flight requests; a separate `resolve…` operation
  models the arrival of a response for an issued request.
* The unbounded recursion of `buildFlat`'s inner `visit` is modelled with
  explicit fuel; the source function terminates on an input precisely when
  some fuel suffices.
-/

/-! ## Data model -/

/-- Agent status, from the `AgentStatus` union of the view API. -/
inductive AgentStatus
  | idle
  | active
  | waiting
  | done
deriving DecidableEq

/-- A roster snapshot entry (`AgentState` plus the open-ended extension fields
the view reads by string key: `toolStartedAt`, `turnCount`, `costUsd`,
`errorCount`, `errorStreak`, `ctxPct`, `context`). Extension fields are
optional: `none` models an absent/falsy property. -/
structure AgentSnapshot where
  id : ℕ
  status : AgentStatus
  parentId : Option ℕ
  lastActivityAt : ℕ
  toolStartedAt : Option ℕ
  turnCount : Option ℕ
  costUsd : Option ℚ
  errorCount : Option ℕ
  errorStreak : Option ℕ
  ctxPct : Option ℕ
  context : Option String
deriving DecidableEq

/-- One tool invocation in a session's history (`SubAgent` in the source). -/
structure SubAgentCall where
  saId : String
  tool : String
  prompt : String
  output : String
  completed : Bool
  error : Bool
  startedAt : ℕ
  finishedAt : Option ℕ
  durationMs : Option ℕ
deriving DecidableEq

/-- The per-agent derived row (`AgentRow` in the source): the latest snapshot
plus locally tracked metrics. -/
structure AgentRow where
  agent : AgentSnapshot
  toolStartedAt : Option ℕ
  errorCount : ℕ
  turnCount : ℕ
  costUsd : ℚ
  errorStreak : ℕ
  ctxPct : ℕ
  context : String
deriving DecidableEq

/-! ## Duration classifier (source lines 5-6, 355-359) -/

def STUCK_MS : ℤ := 3 * 60 * 1000

def LONG_MS : ℤ := 60 * 1000

/-- The three severity levels returned by `durClass`. -/
inductive DurClass
  | ok
  | long
  | stuck
deriving DecidableEq

/-- `durClass(ms)`: `ms >= STUCK_MS ? "c-stuck" : ms >= LONG_MS ? "c-long" : "c-ok"`. -/
def durClass (ms : ℤ) : DurClass :=
  if ms ≥ STUCK_MS then .stuck else if ms ≥ LONG_MS then .long else .ok

/-- `barPct(ms)`: `Math.min(100, (ms / STUCK_MS) * 100)`. -/
def barPct (ms : ℤ) : ℚ :=
  min 100 ((ms : ℚ) / (STUCK_MS : ℚ) * 100)

/-! ## Timeline tick engine (source lines 333-348) -/

/-- The fixed ascending candidate set of tick intervals (milliseconds):
1s, 5s, 10s, 30s, 1m, 5m, 10m, 15m, 30m, 1h, 2h, 4h. -/
def INTERVALS : List ℚ :=
  [1000, 5000, 10000, 30000,
   60000, 5 * 60000, 10 * 60000, 15 * 60000, 30 * 60000,
   3600000, 2 * 3600000, 4 * 3600000]

/-- `INTERVALS.find(i => i >= dur / 8) ?? INTERVALS[INTERVALS.length - 1]`. -/
def tlInterval (dur : ℚ) : ℚ :=
  (INTERVALS.find? (fun i => decide (dur / 8 ≤ i))).getD 14400000

/-- One generated tick. The source emits `{ pct, label }` where
`label = fmtTickLabel(t, interval)` renders `t` as a wall-clock time (local
timezone, not modelled); we carry the raw instant `t` alongside `pct`. -/
structure TickMark where
  time : ℚ
  pct : ℚ
deriving DecidableEq

/-- `tlTicks(start, end)`: the first tick is `Math.ceil(start / interval) *
interval`, then one tick every `interval` while `t <= end`, each with
percentage offset `(t - start) / dur * 100`. The `for` loop is rendered in
closed form as a `List.range` map of length `⌊(stop - first) / interval⌋ + 1`. -/
def tlTicks (start stop : ℚ) : List TickMark :=
  let dur := stop - start
  let interval := tlInterval dur
  let first : ℚ := (⌈start / interval⌉ : ℤ) * interval
  if first ≤ stop then
    (List.range ((⌊(stop - first) / interval⌋).toNat + 1)).map fun k : ℕ =>
      { time := first + (k : ℚ) * interval
        pct := (first + (k : ℚ) * interval - start) / dur * 100 }
  else []

/-! ## Zoom engine (source lines 298, 350-353, 610-633, 1005-1021, 1028-1090) -/

/-- The 8-hour full timeline window (`TL_WINDOW`). -/
def TL_WINDOW : ℚ := 8 * 60 * 60 * 1000

/-- `getTimeWindow()`: the explicit zoom range if one is set, else
`[now - TL_WINDOW, now]`. -/
def getTimeWindow (zoom : Option (ℚ × ℚ)) (now : ℚ) : ℚ × ℚ :=
  match zoom with
  | some z => z
  | none => (now - TL_WINDOW, now)

/-- The `data-tl-zoom` / `data-tl-block-zoom` click handlers: parse `"s,e"` and
apply `if (s && e && e > s) _tlZoom = { start: s, end: e }`. JavaScript
truthiness on a parsed number means `s ≠ 0` (NaN does not arise for the
attribute values the renderer writes). -/
def clickZoomApply (zoom : Option (ℚ × ℚ)) (s e : ℚ) : Option (ℚ × ℚ) :=
  if s ≠ 0 ∧ e ≠ 0 ∧ s < e then some (s, e) else zoom

/-- The drag-to-zoom `onUp` handler (source lines 1065-1082): clamp the cursor
to the track, drop drags narrower than 5 px, map pixels to instants inside the
active window, and apply the range only if `tEnd > tStart + 500`. -/
def dragUpApply (zoom : Option (ℚ × ℚ)) (now startX rawX width : ℚ) :
    Option (ℚ × ℚ) :=
  let curX := max 0 (min rawX width)
  let x1 := min startX curX
  let x2 := max startX curX
  if x2 - x1 < 5 then zoom
  else
    let w := getTimeWindow zoom now
    let dur := w.2 - w.1
    let tS := w.1 + x1 / width * dur
    let tE := w.1 + x2 / width * dur
    if tS + 500 < tE then some (tS, tE) else zoom

/-- Tool-block click zoom target (source lines 610-614): the block span padded
on each side by `Math.max(blockDur * 0.5, 10_000)`. -/
def blockZoomRange (ts te : ℚ) : ℚ × ℚ :=
  let blockDur := te - ts
  let blockPad := max (blockDur * (1 / 2)) 10000
  (ts - blockPad, te + blockPad)

/-- Session-label click zoom target (source lines 624-628): the session span
(floored at 30 s) padded by `Math.max(sessDur * 0.1, 15_000)`; for an active
session the right edge is `now + 2_000` instead. -/
def sessionZoomRange (sessionStart sessionEnd nowMs : ℚ) (isActive : Bool) :
    ℚ × ℚ :=
  let sessDur := max (sessionEnd - sessionStart) 30000
  let pad := max (sessDur * (1 / 10)) 15000
  (sessionStart - pad, if isActive then nowMs + 2000 else sessionEnd + pad)

/-! ## Association-list maps and sets (model of `Map` / `Set`) -/

/-- `Map.get(k)` (as an `Option`). -/
def alookup {β : Type} (l : List (ℕ × β)) (k : ℕ) : Option β :=
  (l.find? (fun p => p.1 == k)).map Prod.snd

/-- `Map.set(k, v)`: replace in place if present, else append. -/
def aset {β : Type} : List (ℕ × β) → ℕ → β → List (ℕ × β)
  | [], k, v => [(k, v)]
  | (k', v') :: t, k, v =>
      if k' = k then (k, v) :: t else (k', v') :: aset t k v

/-- `Map.delete(k)`. -/
def adel {β : Type} : List (ℕ × β) → ℕ → List (ℕ × β)
  | [], _ => []
  | (k', v') :: t, k => if k' = k then adel t k else (k', v') :: adel t k

/-- `Set.delete(k)` on a list-represented set. -/
def sdel (l : List ℕ) (k : ℕ) : List ℕ := l.filter (fun x => x != k)

/-! ## Agent row store (source lines 395-434, 1134-1181) -/

/-- `ctx.agents.find(a => a.id === id)`. -/
def findAgent (roster : List AgentSnapshot) (id : ℕ) : Option AgentSnapshot :=
  roster.find? (fun a => a.id == id)

/-- `rowFromAgent` (source lines 412-424). -/
def rowFromAgent (a : AgentSnapshot) : AgentRow :=
  { agent := a
    toolStartedAt := a.toolStartedAt
    errorCount := a.errorCount.getD 0
    turnCount := a.turnCount.getD 0
    costUsd := a.costUsd.getD 0
    errorStreak := a.errorStreak.getD 0
    ctxPct := a.ctxPct.getD 0
    context := a.context.getD "" }

/-- `syncRow` (source lines 395-410): if the row and the roster entry both
exist, re-read the snapshot and every extension field; `toolStartedAt` is
overwritten from the snapshot (or cleared when the snapshot lacks it), the
other counters fall back to the row's current value when absent. -/
def syncRow (roster : List AgentSnapshot) (id : ℕ)
    (rows : List (ℕ × AgentRow)) : List (ℕ × AgentRow) :=
  match alookup rows id with
  | none => rows
  | some row =>
    match findAgent roster id with
    | none => rows
    | some a =>
      aset rows id
        { agent := a
          toolStartedAt := a.toolStartedAt
          turnCount := a.turnCount.getD row.turnCount
          costUsd := a.costUsd.getD row.costUsd
          errorCount := a.errorCount.getD row.errorCount
          errorStreak := a.errorStreak.getD row.errorStreak
          ctxPct := a.ctxPct.getD row.ctxPct
          context := a.context.getD row.context }

/-- `getOrCreate` (source lines 426-434): lazily insert a row from the roster;
returns the rows map and the found/created row, or `none` when the id is
neither stored nor in the roster. -/
def getOrCreate (roster : List AgentSnapshot) (id : ℕ)
    (rows : List (ℕ × AgentRow)) : List (ℕ × AgentRow) × Option AgentRow :=
  match alookup rows id with
  | some r => (rows, some r)
  | none =>
    match findAgent roster id with
    | none => (rows, none)
    | some a => (aset rows id (rowFromAgent a), some (rowFromAgent a))

/-- `tool_start` handler (source lines 1164-1168): lazily create the row, set
its tool-start instant from the event timestamp, then `syncRow`. -/
def onToolStart (roster : List AgentSnapshot) (id ts : ℕ)
    (rows : List (ℕ × AgentRow)) : List (ℕ × AgentRow) :=
  let p := getOrCreate roster id rows
  let rows2 :=
    match p.2 with
    | none => p.1
    | some r => aset p.1 id { r with toolStartedAt := some ts }
  syncRow roster id rows2

/-- `tool_done` row mutation (source lines 1169-1172): lazily create the row,
bump the error count on an error payload, clear the tool-start instant, then
`syncRow`. -/
def onToolDone (roster : List AgentSnapshot) (id : ℕ) (isErr : Bool)
    (rows : List (ℕ × AgentRow)) : List (ℕ × AgentRow) :=
  let p := getOrCreate roster id rows
  let rows2 :=
    match p.2 with
    | none => p.1
    | some r =>
        aset p.1 id
          { r with
            errorCount := if isErr then r.errorCount + 1 else r.errorCount
            toolStartedAt := none }
  syncRow roster id rows2

/-! ## View state and the operation step relation -/

/-- The four fetch paths: the sub-agent panel (`_expanded`), the timeline
tool-history loader (`loadTimelineData` → `_tlData`), the stats-panel
on-demand loader (`renderStats` → `_tlData`, guarded by `_statsLoading`), and
the retro-analysis loader (`_retroData` / `_retroLoading`). -/
inductive CacheKind
  | subPanel
  | timeline
  | stats
  | retro
deriving DecidableEq

/-- An outbound HTTP request, identified by fetch path and session id. -/
abbrev Req := CacheKind × ℕ

/-- `_mode`. -/
inductive ViewMode
  | list
  | timeline
  | dag
deriving DecidableEq

/-- The retro-analysis payload; only the fields `renderRetroPanel` branches on
to decide between "no panel" and "panel" are modelled (`judgment`, `session`),
the rest of the payload feeds markup that no claim inspects. -/
structure RetroAnalysis where
  judgment : Option Unit
  session : Option Unit
  narrative : Option String
deriving DecidableEq

/-- The module-level mutable state of the mounted view (source lines 281-299),
restricted to the store, the caches, the stats selection and the mode. The
`inflight` field tracks the multiset of outbound requests not yet resolved
(the source never cancels a fetch). -/
structure ViewState where
  rows : List (ℕ × AgentRow)
  expanded : List (ℕ × Option (List SubAgentCall))
  tlData : List (ℕ × List SubAgentCall)
  statsLoading : List ℕ
  retroData : List (ℕ × Option RetroAnalysis)
  retroLoading : List ℕ
  dagSel : Option ℕ
  mode : ViewMode
  inflight : List Req
deriving DecidableEq

/-- The empty state before `mount` populates it. -/
def emptyViewState : ViewState :=
  { rows := [], expanded := [], tlData := [], statsLoading := []
    retroData := [], retroLoading := [], dagSel := none
    mode := .list, inflight := [] }

/-- `loadTimelineData` (source lines 661-676): one `fetchSubagents` request per
roster id whose timeline data is not yet cached. There is no in-flight marker
for this path — absence from `_tlData` alone gates the fetch. -/
def loadTimelineReqs (roster : List AgentSnapshot) (s : ViewState) : List Req :=
  ((roster.map (fun a => a.id)).filter
    (fun i => (alookup s.tlData i).isNone)).map (fun i => (CacheKind.timeline, i))

/-- The typed lifecycle events (source lines 1142-1181). Only the payload
fields the handlers read are carried. -/
inductive AgentEvent
  | agent_created (id : ℕ)
  | subagent_created (id : ℕ)
  | agent_removed (id : ℕ)
  | subagent_removed (id : ℕ)
  | tool_start (id : ℕ) (timestamp : ℕ)
  | tool_done (id : ℕ) (isError : Bool)
  | status_changed (id : ℕ)
  | turn_complete (id : ℕ)
deriving DecidableEq

/-- The agent id an event refers to. -/
def AgentEvent.agentId : AgentEvent → ℕ
  | .agent_created id => id
  | .subagent_created id => id
  | .agent_removed id => id
  | .subagent_removed id => id
  | .tool_start id _ => id
  | .tool_done id _ => id
  | .status_changed id => id
  | .turn_complete id => id

/-- The event subscriptions installed by `mount` (source lines 1142-1181),
applied against the live roster at delivery time. Returns the new state and
the requests the handler issued. -/
def applyEvent (roster : List AgentSnapshot) (e : AgentEvent) (s : ViewState) :
    ViewState × List Req :=
  match e with
  | .agent_created id =>
    match findAgent roster id with
    | none => (s, [])
    | some a =>
      let s1 := { s with rows := aset s.rows a.id (rowFromAgent a) }
      let p2 : ViewState × List Req :=
        if a.status = .active then
          ({ s1 with expanded := aset s1.expanded a.id none
                     inflight := s1.inflight ++ [(.subPanel, a.id)] },
           [(.subPanel, a.id)])
        else (s1, [])
      let s2 := p2.1
      if s2.mode = .timeline ∨ s2.mode = .dag then
        let s3 := { s2 with tlData := adel s2.tlData a.id }
        let reqs := loadTimelineReqs roster s3
        ({ s3 with inflight := s3.inflight ++ reqs }, p2.2 ++ reqs)
      else (s2, p2.2)
  | .subagent_created id =>
    (match findAgent roster id with
     | none => s
     | some a => { s with rows := aset s.rows a.id (rowFromAgent a) }, [])
  | .agent_removed id =>
    ({ s with rows := adel s.rows id
              expanded := adel s.expanded id
              tlData := adel s.tlData id
              statsLoading := sdel s.statsLoading id
              dagSel := if s.dagSel = some id then none else s.dagSel }, [])
  | .subagent_removed id =>
    ({ s with rows := adel s.rows id, expanded := adel s.expanded id }, [])
  | .tool_start id ts =>
    ({ s with rows := onToolStart roster id ts s.rows }, [])
  | .tool_done id isErr =>
    let s1 := { s with rows := onToolDone roster id isErr s.rows }
    let p2 : ViewState × List Req :=
      if (alookup s1.expanded id).isSome then
        ({ s1 with expanded := aset s1.expanded id none
                   inflight := s1.inflight ++ [(.subPanel, id)] },
         [(.subPanel, id)])
      else (s1, [])
    let s2 := p2.1
    if s2.mode = .timeline ∨ s2.mode = .dag then
      let s3 := { s2 with tlData := adel s2.tlData id }
      let reqs := loadTimelineReqs roster s3
      ({ s3 with inflight := s3.inflight ++ reqs }, p2.2 ++ reqs)
    else (s2, p2.2)
  | .status_changed id => ({ s with rows := syncRow roster id s.rows }, [])
  | .turn_complete id => ({ s with rows := syncRow roster id s.rows }, [])

/-- Every operation that can touch the state: event delivery, the user-driven
cache entry points, the timers, and the arrival of fetch responses. -/
inductive Op
  | ev (roster : List AgentSnapshot) (e : AgentEvent)
  | toggleExpand (id : ℕ)
  | resolveExpand (id : ℕ) (result : Option (List SubAgentCall))
  | loadTimeline (roster : List AgentSnapshot)
  | tlRefreshTick (roster : List AgentSnapshot)
  | resolveTimeline (id : ℕ) (result : Option (List SubAgentCall))
  | setMode (roster : List AgentSnapshot) (m : ViewMode)
  | dagRender (id : ℕ)
  | resolveStats (id : ℕ) (result : Option (List SubAgentCall))
  | retroResolve (id : ℕ) (result : Option RetroAnalysis)

/-- The single-threaded step function. A `resolve…` operation fires only for a
request that is actually in flight (a response cannot arrive for a request
that was never issued); on arrival it stores the payload exactly as the
source's `then`/`catch` handlers do and removes the request from flight. -/
def stepOp (op : Op) (s : ViewState) : ViewState × List Req :=
  match op with
  | .ev roster e => applyEvent roster e s
  | .toggleExpand id =>
    if (alookup s.expanded id).isSome then
      ({ s with expanded := adel s.expanded id }, [])
    else
      ({ s with expanded := aset s.expanded id none
                inflight := s.inflight ++ [(.subPanel, id)] }, [(.subPanel, id)])
  | .resolveExpand id result =>
    if (CacheKind.subPanel, id) ∈ s.inflight then
      match result with
      | some v =>
        ({ s with expanded := aset s.expanded id (some v)
                  inflight := s.inflight.erase (.subPanel, id) }, [])
      | none => ({ s with inflight := s.inflight.erase (.subPanel, id) }, [])
    else (s, [])
  | .loadTimeline roster =>
    let reqs := loadTimelineReqs roster s
    ({ s with inflight := s.inflight ++ reqs }, reqs)
  | .tlRefreshTick roster =>
    if s.mode = .timeline ∨ s.mode = .dag then
      let s1 :=
        { s with
          tlData := roster.foldl
            (fun m a => if a.status = AgentStatus.active then adel m a.id else m)
            s.tlData }
      let reqs := loadTimelineReqs roster s1
      ({ s1 with inflight := s1.inflight ++ reqs }, reqs)
    else (s, [])
  | .resolveTimeline id result =>
    if (CacheKind.timeline, id) ∈ s.inflight then
      match result with
      | some v =>
        ({ s with tlData := aset s.tlData id v
                  inflight := s.inflight.erase (.timeline, id) }, [])
      | none => ({ s with inflight := s.inflight.erase (.timeline, id) }, [])
    else (s, [])
  | .setMode roster m =>
    if s.mode = m then (s, [])
    else
      let s1 := { s with mode := m }
      if m = .timeline then
        let reqs := loadTimelineReqs roster s1
        ({ s1 with inflight := s1.inflight ++ reqs }, reqs)
      else (s1, [])
  | .dagRender id =>
    match alookup s.tlData id with
    | none =>
      if id ∉ s.statsLoading then
        ({ s with statsLoading := id :: s.statsLoading
                  inflight := s.inflight ++ [(.stats, id)] }, [(.stats, id)])
      else (s, [])
    | some _ =>
      if (alookup s.retroData id).isNone ∧ id ∉ s.retroLoading then
        ({ s with retroLoading := id :: s.retroLoading
                  inflight := s.inflight ++ [(.retro, id)] }, [(.retro, id)])
      else (s, [])
  | .resolveStats id result =>
    if (CacheKind.stats, id) ∈ s.inflight then
      let s1 :=
        match result with
        | some v => { s with tlData := aset s.tlData id v }
        | none => s
      ({ s1 with statsLoading := sdel s1.statsLoading id
                 inflight := s1.inflight.erase (.stats, id) }, [])
    else (s, [])
  | .retroResolve id result =>
    if (CacheKind.retro, id) ∈ s.inflight then
      ({ s with retroData := aset s.retroData id result
                retroLoading := sdel s.retroLoading id
                inflight := s.inflight.erase (.retro, id) }, [])
    else (s, [])

/-! ## Retro panel rendering (source lines 680-683, 862-871) -/

/-- Placeholder markup shown while the retro fetch is pending; the inner text
of the source is kept, the surrounding markup abbreviated. -/
def retroLoadingHtml : String :=
  "<div class=pm-retro>Loading retro analysis</div>"

/-- The populated retro panel; its body (badge, narrative, score bars) is
abbreviated because no claim inspects it. -/
def retroPanelHtml (_r : RetroAnalysis) : String :=
  "<div class=pm-retro><div class=pm-retro-hdr>Retro Analysis</div></div>"

/-- `renderRetroPanel(retro)` (source lines 680-683, 688): `undefined` (outer
`none`) renders the loading placeholder, `null` renders nothing, and a payload
with neither `judgment` nor `session` also renders nothing. -/
def renderRetroPanel (retro : Option (Option RetroAnalysis)) : String :=
  match retro with
  | none => retroLoadingHtml
  | some none => ""
  | some (some r) =>
    if r.judgment.isNone ∧ r.session.isNone then "" else retroPanelHtml r

/-- The retro argument `renderStats` passes for a selected session (source
line 870): `_retroLoading.has(id) ? undefined : (_retroData.get(id) ?? null)`. -/
def retroPanelOf (s : ViewState) (id : ℕ) : String :=
  renderRetroPanel
    (if id ∈ s.retroLoading then none else some ((alookup s.retroData id).getD none))

/-! ## Basic lemmas about the map/set model -/

theorem alookup_aset_self {β : Type} (l : List (ℕ × β)) (k : ℕ) (v : β) :
    alookup (aset l k v) k = some v := by
  induction l with
  | nil => simp [aset, alookup]
  | cons p t ih =>
    obtain ⟨k', v'⟩ := p
    by_cases h : k' = k
    · simp [aset, h, alookup]
    · simpa [aset, h, alookup, List.find?, show (k' == k) = false by
        simpa using h] using ih

theorem alookup_aset_ne {β : Type} (l : List (ℕ × β)) (k k' : ℕ) (v : β)
    (h : k ≠ k') : alookup (aset l k v) k' = alookup l k' := by
  have hbk : (k == k') = false := by simpa using h
  induction l with
  | nil => simp [aset, alookup, List.find?, hbk]
  | cons p t ih =>
    obtain ⟨k0, v0⟩ := p
    by_cases h0 : k0 = k
    · simp [aset, h0, alookup, List.find?, hbk]
    · simp only [aset, if_neg h0]
      by_cases h1 : k0 = k'
      · simp [alookup, List.find?, h1]
      · simpa [alookup, List.find?, show (k0 == k') = false by simpa using h1]
          using ih

theorem alookup_adel_self {β : Type} (l : List (ℕ × β)) (k : ℕ) :
    alookup (adel l k) k = none := by
  induction l with
  | nil => simp [adel, alookup]
  | cons p t ih =>
    obtain ⟨k0, v0⟩ := p
    by_cases h0 : k0 = k
    · simpa [adel, h0] using ih
    · simpa [adel, h0, alookup, List.find?,
        show (k0 == k) = false by simpa using h0] using ih

theorem mem_sdel_iff (l : List ℕ) (k x : ℕ) : x ∈ sdel l k ↔ x ∈ l ∧ x ≠ k := by
  simp [sdel, List.mem_filter]

theorem not_mem_sdel_self (l : List ℕ) (k : ℕ) : k ∉ sdel l k := by
  simp [mem_sdel_iff]

/-! ## Claim C3: the duration classifier and bar fill -/

/-- C3: `durClass` is a pure function of elapsed milliseconds returning `ok`
below 60 000 ms, `long` in [60 000, 180 000) and `stuck` from 180 000 ms on
(so `ok` at 0, `long` at exactly 60 000, `stuck` at exactly 180 000), and
`barPct` equals `min 100 (elapsed / 180000 * 100)`, saturating at 100 exactly
from the stuck boundary on. -/
theorem durClass_barPct_spec :
    ∀ ms : ℤ,
      (durClass ms = DurClass.ok ↔ ms < 60000) ∧
      (durClass ms = DurClass.long ↔ 60000 ≤ ms ∧ ms < 180000) ∧
      (durClass ms = DurClass.stuck ↔ 180000 ≤ ms) ∧
      barPct ms = min 100 ((ms : ℚ) / 180000 * 100) ∧
      (barPct ms = 100 ↔ 180000 ≤ ms) ∧
      durClass 0 = DurClass.ok ∧
      durClass 60000 = DurClass.long ∧
      durClass 180000 = DurClass.stuck := by
  intro ms
  have h180 : ((STUCK_MS : ℤ) : ℚ) = 180000 := by norm_num [STUCK_MS]
  refine ⟨?_, ?_, ?_, ?_, ?_, by decide, by decide, by decide⟩
  · unfold durClass STUCK_MS LONG_MS
    split_ifs with h1 h2 <;> simp <;> omega
  · unfold durClass STUCK_MS LONG_MS
    split_ifs with h1 h2 <;> simp <;> omega
  · unfold durClass STUCK_MS LONG_MS
    split_ifs with h1 h2 <;> simp <;> omega
  · rw [barPct, h180]
  · rw [barPct, h180, min_eq_left_iff, div_mul_eq_mul_div,
      le_div_iff₀ (by norm_num : (0 : ℚ) < 180000)]
    constructor
    · intro h
      have : (180000 : ℚ) ≤ (ms : ℚ) := by linarith
      exact_mod_cast this
    · intro h
      have : (180000 : ℚ) ≤ (ms : ℚ) := by exact_mod_cast h
      linarith

/-- The click handlers install any range whose endpoints are nonzero and
ordered. -/
theorem clickZoomApply_applies (zoom : Option (ℚ × ℚ)) (s e : ℚ)
    (hs : s ≠ 0) (he : e ≠ 0) (hlt : s < e) :
    clickZoomApply zoom s e = some (s, e) := by
  unfold clickZoomApply
  rw [if_pos ⟨hs, he, hlt⟩]

/-! ## Claim C7: minimum zoom margin -/

/-- C7 (amended): only the drag-to-zoom path enforces the 500 ms minimum
margin — a drag either leaves the zoom state unchanged or installs a range
wider than 500 ms (so a computed range `(a, b)` with `b ≤ a + 499` never
replaces the zoom); the session-label and tool-block click handlers validate
only that both parsed endpoints are nonzero and `start < end`, and then always
replace the zoom, with no minimum margin. -/
theorem zoom_min_margin :
    (∀ zoom now startX rawX width,
       dragUpApply zoom now startX rawX width = zoom ∨
       ∃ a b, dragUpApply zoom now startX rawX width = some (a, b) ∧
         a + 500 < b) ∧
    (∀ (zoom : Option (ℚ × ℚ)) (s e : ℚ), s ≠ 0 → e ≠ 0 → s < e →
       clickZoomApply zoom s e = some (s, e)) := by
  constructor
  · intro zoom now startX rawX width
    unfold dragUpApply
    dsimp only
    split_ifs with h1 h2
    · exact Or.inl rfl
    · exact Or.inr ⟨_, _, rfl, h2⟩
    · exact Or.inl rfl
  · intro zoom s e hs he hlt
    exact clickZoomApply_applies zoom s e hs he hlt

/-- Witness for C7 at concrete inputs. -/
theorem zoom_min_margin_witness :
    (1000 : ℚ) ≠ 0 ∧ (1400 : ℚ) ≠ 0 ∧ (1000 : ℚ) < 1400 ∧
    clickZoomApply none 1000 1400 = some (1000, 1400) :=
  ⟨by norm_num, by norm_num, by norm_num,
   zoom_min_margin.2 none 1000 1400 (by norm_num) (by norm_num) (by norm_num)⟩

/-- Counterexample to C7 as stated: requesting the range (2000, 2300) — which
has `b ≤ a + 499` — through the click entry point (`data-tl-zoom` /
`data-tl-block-zoom` handler) does change the zoom state: the 500 ms margin is
not enforced there. -/
theorem zoom_min_margin_cx :
    (2300 : ℚ) ≤ 2000 + 499 ∧
    clickZoomApply none 2000 2300 = some (2000, 2300) := by
  constructor
  · norm_num
  · norm_num [clickZoomApply]

/-! ## Claim C8: padded click-zoom targets -/

/-- C8 (amended): clicking a tool block zooms to its [start, finish] span
padded on each side by `max(50% of the span, 10 s)`; clicking a session label
zooms to `[start − pad, last-activity + pad]` with `pad = max(10% of the
span floored at 30 s, 15 s)` for an inactive session, and to
`[start − pad, now + 2 s]` for an active one; the padded range is applied as
the new zoom by the click handler (whenever its endpoints are nonzero). -/
theorem padded_click_zoom_spec :
    (∀ (zoom : Option (ℚ × ℚ)) (ts te : ℚ), ts ≤ te →
       ts - max ((te - ts) / 2) 10000 ≠ 0 →
       te + max ((te - ts) / 2) 10000 ≠ 0 →
       blockZoomRange ts te =
         (ts - max ((te - ts) / 2) 10000, te + max ((te - ts) / 2) 10000) ∧
       clickZoomApply zoom (blockZoomRange ts te).1 (blockZoomRange ts te).2 =
         some (blockZoomRange ts te)) ∧
    (∀ (zoom : Option (ℚ × ℚ)) (sStart sEnd nowMs : ℚ), sStart ≤ sEnd →
       sStart - max (max (sEnd - sStart) 30000 / 10) 15000 ≠ 0 →
       sEnd + max (max (sEnd - sStart) 30000 / 10) 15000 ≠ 0 →
       sessionZoomRange sStart sEnd nowMs false =
         (sStart - max (max (sEnd - sStart) 30000 / 10) 15000,
          sEnd + max (max (sEnd - sStart) 30000 / 10) 15000) ∧
       clickZoomApply zoom (sessionZoomRange sStart sEnd nowMs false).1
           (sessionZoomRange sStart sEnd nowMs false).2 =
         some (sessionZoomRange sStart sEnd nowMs false)) ∧
    (∀ (zoom : Option (ℚ × ℚ)) (sStart sEnd nowMs : ℚ), sStart ≤ nowMs →
       sStart - max (max (sEnd - sStart) 30000 / 10) 15000 ≠ 0 →
       nowMs + 2000 ≠ 0 →
       sessionZoomRange sStart sEnd nowMs true =
         (sStart - max (max (sEnd - sStart) 30000 / 10) 15000, nowMs + 2000) ∧
       clickZoomApply zoom (sessionZoomRange sStart sEnd nowMs true).1
           (sessionZoomRange sStart sEnd nowMs true).2 =
         some (sessionZoomRange sStart sEnd nowMs true)) := by
  refine ⟨?_, ?_, ?_⟩
  · intro zoom ts te hle hs he
    have heq : blockZoomRange ts te =
        (ts - max ((te - ts) / 2) 10000, te + max ((te - ts) / 2) 10000) := by
      unfold blockZoomRange
      dsimp only
      ring_nf
    refine ⟨heq, ?_⟩
    rw [heq]
    dsimp only
    have hpad : (10000 : ℚ) ≤ max ((te - ts) / 2) 10000 := le_max_right _ _
    exact clickZoomApply_applies zoom _ _ hs he (by linarith)
  · intro zoom sStart sEnd nowMs hle hs he
    have hpad : (15000 : ℚ) ≤ max (max (sEnd - sStart) 30000 / 10) 15000 :=
      le_max_right _ _
    have heq : sessionZoomRange sStart sEnd nowMs false =
        (sStart - max (max (sEnd - sStart) 30000 / 10) 15000,
         sEnd + max (max (sEnd - sStart) 30000 / 10) 15000) := by
      unfold sessionZoomRange
      norm_num
      ring_nf
    refine ⟨heq, ?_⟩
    rw [heq]
    dsimp only
    exact clickZoomApply_applies zoom _ _ hs he (by linarith)
  · intro zoom sStart sEnd nowMs hle hs he
    have hpad : (15000 : ℚ) ≤ max (max (sEnd - sStart) 30000 / 10) 15000 :=
      le_max_right _ _
    have heq : sessionZoomRange sStart sEnd nowMs true =
        (sStart - max (max (sEnd - sStart) 30000 / 10) 15000, nowMs + 2000) := by
      unfold sessionZoomRange
      norm_num
      ring_nf
    refine ⟨heq, ?_⟩
    rw [heq]
    dsimp only
    exact clickZoomApply_applies zoom _ _ hs he (by linarith)

/-- Witness for C8 at a concrete block span. -/
theorem padded_click_zoom_spec_witness :
    (0 : ℚ) ≤ 100000 ∧
    (0 : ℚ) - max ((100000 - 0) / 2) 10000 ≠ 0 ∧
    (100000 : ℚ) + max ((100000 - 0) / 2) 10000 ≠ 0 ∧
    (blockZoomRange 0 100000 =
       (0 - max ((100000 - 0) / 2) 10000, 100000 + max ((100000 - 0) / 2) 10000) ∧
     clickZoomApply none (blockZoomRange 0 100000).1 (blockZoomRange 0 100000).2 =
       some (blockZoomRange 0 100000)) :=
  ⟨by norm_num, by norm_num, by norm_num,
   padded_click_zoom_spec.1 none 0 100000 (by norm_num) (by norm_num) (by norm_num)⟩

/-- Counterexample to C8 as stated: the code pads a tool block by half its
span (floored at 10 s), not by 10 % of the span — a 100 s block gets 50 s of
padding per side and a 200 s block gets 100 s, and no single fixed floor `F`
makes `max(span / 10, F)` reproduce both. -/
theorem padded_click_zoom_spec_cx :
    blockZoomRange 0 100000 = (-50000, 150000) ∧
    blockZoomRange 0 200000 = (-100000, 300000) ∧
    ¬ ∃ F : ℚ, max ((100000 : ℚ) / 10) F = 50000 ∧
        max ((200000 : ℚ) / 10) F = 100000 := by
  refine ⟨by norm_num [blockZoomRange], by norm_num [blockZoomRange], ?_⟩
  rintro ⟨F, h1, h2⟩
  have hF : F = 50000 := by
    rcases max_cases ((100000 : ℚ) / 10) F with ⟨he, _⟩ | ⟨he, _⟩ <;>
      rw [he] at h1 <;> linarith
  rw [hF] at h2
  norm_num at h2

/-! ## Claim C1: `tool_start` and the locally-tracked tool-start instant -/

/-- C1 (amended): after the `tool_start` handler runs for an id that is
present in the roster, the row's locally-tracked tool-start instant equals the
roster snapshot's own `toolStartedAt` copy (`none` when the snapshot lacks
it), because the handler's trailing `syncRow` overwrites the event timestamp
it just stored; the event timestamp survives only when the id is absent from
the roster while a row for it already exists. -/
theorem tool_start_sync (roster : List AgentSnapshot)
    (rows : List (ℕ × AgentRow)) (id ts : ℕ) :
    (∀ a, findAgent roster id = some a →
       ∃ r, alookup (onToolStart roster id ts rows) id = some r ∧
         r.agent = a ∧ r.toolStartedAt = a.toolStartedAt) ∧
    (findAgent roster id = none →
       ∀ r0, alookup rows id = some r0 →
         ∃ r, alookup (onToolStart roster id ts rows) id = some r ∧
           r.toolStartedAt = some ts) := by
  constructor
  · intro a ha
    cases h0 : alookup rows id with
    | some r =>
      simp only [onToolStart, getOrCreate, h0, ha, syncRow, alookup_aset_self]
      exact ⟨_, rfl, rfl, rfl⟩
    | none =>
      simp only [onToolStart, getOrCreate, h0, ha, syncRow, alookup_aset_self]
      exact ⟨_, rfl, rfl, rfl⟩
  · intro hn r0 h0
    simp only [onToolStart, getOrCreate, h0, hn, syncRow, alookup_aset_self]
    exact ⟨_, rfl, rfl⟩

/-- A roster snapshot whose `toolStartedAt` extension field is absent (the
roster has not yet refreshed after the tool started). -/
def snapNoTs : AgentSnapshot :=
  { id := 1, status := .active, parentId := none, lastActivityAt := 0
    toolStartedAt := none, turnCount := none, costUsd := none
    errorCount := none, errorStreak := none, ctxPct := none, context := none }

/-- Witness for C1 at a concrete roster and empty store. -/
theorem tool_start_sync_witness :
    findAgent [snapNoTs] 1 = some snapNoTs ∧
    ∃ r, alookup (onToolStart [snapNoTs] 1 5000 []) 1 = some r ∧
      r.agent = snapNoTs ∧ r.toolStartedAt = snapNoTs.toolStartedAt :=
  ⟨rfl, (tool_start_sync [snapNoTs] [] 1 5000).1 snapNoTs rfl⟩

/-- Counterexample to C1 as stated: the id 1 is present in the roster, a
`tool_start` event with timestamp 5000 is applied, and yet the row's
locally-tracked tool-start instant afterwards is `none` (the snapshot's
`toolStartedAt` copy), not 5000 — `syncRow` overwrote the event timestamp. -/
theorem tool_start_sync_cx :
    findAgent [snapNoTs] 1 = some snapNoTs ∧
    Option.map AgentRow.toolStartedAt
        (alookup (onToolStart [snapNoTs] 1 5000 [(1, rowFromAgent snapNoTs)]) 1) =
      some none ∧
    some (none : Option ℕ) ≠ some (some 5000) :=
  ⟨rfl, rfl, by decide⟩

/-! ## Claim C6: total removal on `agent_removed` -/

/-- C6 (amended): `agent_removed` for id X deletes X's row and purges X from
the sub-agent panel expansion map, the timeline cache, the stats loading set
and the stats selection; afterwards, any event for X leaves the store without
a row for X provided X is (as expected after removal) absent from the current
roster — if the roster still lists X, `getOrCreate` lazily recreates the row
on the next `tool_start`/`tool_done`/`agent_created` for X. -/
theorem agent_removed_total :
    (∀ (roster : List AgentSnapshot) (s : ViewState) (id : ℕ),
       alookup ((applyEvent roster (.agent_removed id) s).1).rows id = none ∧
       alookup ((applyEvent roster (.agent_removed id) s).1).expanded id = none ∧
       alookup ((applyEvent roster (.agent_removed id) s).1).tlData id = none ∧
       id ∉ ((applyEvent roster (.agent_removed id) s).1).statsLoading ∧
       ((applyEvent roster (.agent_removed id) s).1).dagSel ≠ some id) ∧
    (∀ (roster : List AgentSnapshot) (s : ViewState) (e : AgentEvent),
       findAgent roster e.agentId = none →
       alookup s.rows e.agentId = none →
       alookup ((applyEvent roster e s).1).rows e.agentId = none) := by
  constructor
  · intro roster s id
    refine ⟨alookup_adel_self _ _, alookup_adel_self _ _, alookup_adel_self _ _,
      not_mem_sdel_self _ _, ?_⟩
    show (if s.dagSel = some id then none else s.dagSel) ≠ some id
    by_cases h : s.dagSel = some id <;> simp [h]
  · intro roster s e hn h0
    cases e with
    | agent_created id =>
      simp only [AgentEvent.agentId] at hn h0
      simp only [applyEvent, hn]
      exact h0
    | subagent_created id =>
      simp only [AgentEvent.agentId] at hn h0
      simp only [applyEvent, hn]
      exact h0
    | agent_removed id => exact alookup_adel_self _ _
    | subagent_removed id => exact alookup_adel_self _ _
    | tool_start id ts =>
      simp only [AgentEvent.agentId] at hn h0
      simp only [applyEvent, onToolStart, getOrCreate, h0, hn, syncRow]
      exact h0
    | tool_done id isErr =>
      simp only [AgentEvent.agentId] at hn h0
      have hrows : (applyEvent roster (.tool_done id isErr) s).1.rows =
          onToolDone roster id isErr s.rows := by
        simp only [applyEvent]
        split_ifs <;> rfl
      rw [hrows]
      simp only [onToolDone, getOrCreate, h0, hn, syncRow]
      exact h0
    | status_changed id =>
      simp only [AgentEvent.agentId] at hn h0
      simp only [applyEvent, syncRow, h0]
      exact h0
    | turn_complete id =>
      simp only [AgentEvent.agentId] at hn h0
      simp only [applyEvent, syncRow, h0]
      exact h0

/-- Witness for C6 at a concrete event and state. -/
theorem agent_removed_total_witness :
    findAgent [] (AgentEvent.tool_start 2 7).agentId = none ∧
    alookup emptyViewState.rows (AgentEvent.tool_start 2 7).agentId = none ∧
    alookup ((applyEvent [] (.tool_start 2 7) emptyViewState).1).rows
      (AgentEvent.tool_start 2 7).agentId = none :=
  ⟨rfl, rfl, agent_removed_total.2 [] emptyViewState (.tool_start 2 7) rfl rfl⟩

/-- A store holding a row for agent 1. -/
def s0cx : ViewState := { emptyViewState with rows := [(1, rowFromAgent snapNoTs)] }

/-- Counterexample to C6 as stated: after `agent_removed` for id 1, a
`tool_start` event for id 1 delivered while the roster still lists the agent
(the authoritative roster may lag removal) lazily recreates the row — the
store is not left without a row for id 1. -/
theorem agent_removed_total_cx :
    (alookup ((applyEvent [snapNoTs] (.tool_start 1 5000)
        ((applyEvent [snapNoTs] (.agent_removed 1) s0cx).1)).1).rows 1).isSome =
      true := by
  rfl

/-! ## Cache concurrency: the retro in-flight guard -/

theorem mem_aset {β : Type} (l : List (ℕ × β)) (k : ℕ) (v : β) (kv : ℕ × β)
    (h : kv ∈ aset l k v) : kv = (k, v) ∨ kv ∈ l := by
  induction l with
  | nil => simpa [aset] using h
  | cons p t ih =>
    obtain ⟨k0, v0⟩ := p
    by_cases h0 : k0 = k
    · rcases (by simpa [aset, h0] using h : kv = (k, v) ∨ kv ∈ t) with h1 | h1
      · exact Or.inl h1
      · exact Or.inr (List.mem_cons_of_mem _ h1)
    · rcases (by simpa [aset, h0] using h : kv = (k0, v0) ∨ kv ∈ aset t k v) with
        h1 | h1
      · exact Or.inr (by simp [h1])
      · rcases ih h1 with h2 | h2
        · exact Or.inl h2
        · exact Or.inr (List.mem_cons_of_mem _ h2)

theorem mem_of_alookup {β : Type} (l : List (ℕ × β)) (k : ℕ) (v : β)
    (h : alookup l k = some v) : (k, v) ∈ l := by
  unfold alookup at h
  cases hf : l.find? (fun q => q.1 == k) with
  | none => simp [hf] at h
  | some q =>
    have hq : q ∈ l := List.mem_of_find?_eq_some hf
    have hk := List.find?_some hf
    have hk' : q.1 = k := by simpa using hk
    have hv : q.2 = v := by simpa [hf] using h
    have : q = (k, v) := by
      cases q
      simp_all
    simpa [this] using hq

theorem alookup_isSome_of_mem {β : Type} (l : List (ℕ × β)) (kv : ℕ × β)
    (h : kv ∈ l) : (alookup l kv.1).isSome = true := by
  induction l with
  | nil => simp at h
  | cons p t ih =>
    by_cases h0 : p.1 = kv.1
    · simp [alookup, List.find?, h0]
    · rcases List.mem_cons.mp h with h1 | h1
      · exact absurd (congrArg Prod.fst h1).symm h0
      · simpa [alookup, List.find?, show (p.1 == kv.1) = false by simpa using h0]
          using ih h1

/-- The coupling invariant of the retro cache: no duplicated in-flight retro
request, every in-flight retro request is marked in `_retroLoading`, and a
cached id has neither an in-flight request nor a loading marker. -/
def retroInv (s : ViewState) : Prop :=
  (s.inflight.filter (fun r => r.1 == CacheKind.retro)).Nodup ∧
  (∀ r ∈ s.inflight, r.1 = CacheKind.retro → r.2 ∈ s.retroLoading) ∧
  (∀ kv ∈ s.retroData,
     (CacheKind.retro, kv.1) ∉ s.inflight ∧ kv.1 ∉ s.retroLoading)

instance (s : ViewState) : Decidable (retroInv s) := by
  unfold retroInv
  infer_instance

/-- Appending non-retro requests (and leaving the retro components alone)
preserves the invariant. -/
theorem retroInv_of_append (s : ViewState) (extra : List Req)
    (h : retroInv s) (hx : ∀ r ∈ extra, r.1 ≠ CacheKind.retro)
    (s' : ViewState) (hin : s'.inflight = s.inflight ++ extra)
    (hld : s'.retroLoading = s.retroLoading)
    (hda : s'.retroData = s.retroData) : retroInv s' := by
  obtain ⟨h1, h2, h3⟩ := h
  refine ⟨?_, ?_, ?_⟩
  · rw [hin, List.filter_append]
    have : extra.filter (fun r => r.1 == CacheKind.retro) = [] := by
      rw [List.filter_eq_nil_iff]
      intro r hr
      simpa using hx r hr
    rw [this, List.append_nil]
    exact h1
  · intro r hr hretro
    rw [hld]
    rw [hin] at hr
    rcases List.mem_append.mp hr with h4 | h4
    · exact h2 r h4 hretro
    · exact absurd hretro (hx r h4)
  · intro kv hkv
    rw [hda] at hkv
    obtain ⟨h4, h5⟩ := h3 kv hkv
    refine ⟨?_, by rwa [hld]⟩
    rw [hin]
    intro hmem
    rcases List.mem_append.mp hmem with h6 | h6
    · exact h4 h6
    · exact absurd rfl (hx _ h6)

/-- Erasing a non-retro request preserves the invariant. -/
theorem retroInv_of_erase (s : ViewState) (x : Req)
    (h : retroInv s)
    (s' : ViewState) (hin : s'.inflight = s.inflight.erase x)
    (hld : s'.retroLoading = s.retroLoading)
    (hda : s'.retroData = s.retroData) : retroInv s' := by
  obtain ⟨h1, h2, h3⟩ := h
  have hsub : s'.inflight.Sublist s.inflight := hin ▸ List.erase_sublist x s.inflight
  refine ⟨?_, ?_, ?_⟩
  · exact h1.sublist (hsub.filter _)
  · intro r hr hretro
    rw [hld]
    exact h2 r (hsub.mem hr) hretro
  · intro kv hkv
    rw [hda] at hkv
    obtain ⟨h4, h5⟩ := h3 kv hkv
    exact ⟨fun hmem => h4 (hsub.mem hmem), by rwa [hld]⟩

theorem loadTimelineReqs_not_retro (roster : List AgentSnapshot) (s : ViewState) :
    ∀ r ∈ loadTimelineReqs roster s, r.1 ≠ CacheKind.retro := by
  intro r hr
  simp only [loadTimelineReqs, List.mem_map] at hr
  obtain ⟨i, _, rfl⟩ := hr
  simp

theorem applyEvent_retroData (roster : List AgentSnapshot) (e : AgentEvent)
    (s : ViewState) : ((applyEvent roster e s).1).retroData = s.retroData := by
  cases e with
  | agent_created id =>
    cases hf : findAgent roster id <;>
      (simp only [applyEvent, hf]; try (split_ifs <;> rfl))
  | tool_done id isErr =>
    simp only [applyEvent]
    split_ifs <;> rfl
  | subagent_created id =>
    cases hf : findAgent roster id <;> simp only [applyEvent, hf]
  | agent_removed id => rfl
  | subagent_removed id => rfl
  | tool_start id ts => rfl
  | status_changed id => rfl
  | turn_complete id => rfl

theorem applyEvent_retroLoading (roster : List AgentSnapshot) (e : AgentEvent)
    (s : ViewState) :
    ((applyEvent roster e s).1).retroLoading = s.retroLoading := by
  cases e with
  | agent_created id =>
    cases hf : findAgent roster id <;>
      (simp only [applyEvent, hf]; try (split_ifs <;> rfl))
  | tool_done id isErr =>
    simp only [applyEvent]
    split_ifs <;> rfl
  | subagent_created id =>
    cases hf : findAgent roster id <;> simp only [applyEvent, hf]
  | agent_removed id => rfl
  | subagent_removed id => rfl
  | tool_start id ts => rfl
  | status_changed id => rfl
  | turn_complete id => rfl

theorem applyEvent_inflight_extra (roster : List AgentSnapshot) (e : AgentEvent)
    (s : ViewState) :
    ∃ extra, ((applyEvent roster e s).1).inflight = s.inflight ++ extra ∧
      ∀ r ∈ extra, r.1 ≠ CacheKind.retro := by
  cases e with
  | agent_created id =>
    cases hf : findAgent roster id with
    | none => exact ⟨[], by simp [applyEvent, hf], by simp⟩
    | some a =>
      simp only [applyEvent, hf]
      split_ifs with h1 h2 h3
      · refine ⟨_, List.append_assoc _ _ _, ?_⟩
        intro r hr
        rcases List.mem_append.mp hr with h | h
        · simp only [List.mem_singleton] at h
          simp [h]
        · exact loadTimelineReqs_not_retro _ _ r h
      · exact ⟨[(CacheKind.subPanel, a.id)], rfl, by simp⟩
      · refine ⟨_, rfl, ?_⟩
        intro r hr
        exact loadTimelineReqs_not_retro _ _ r hr
      · exact ⟨[], by simp, by simp⟩
  | tool_done id isErr =>
    simp only [applyEvent]
    split_ifs with h1 h2 h3
    · refine ⟨_, List.append_assoc _ _ _, ?_⟩
      intro r hr
      rcases List.mem_append.mp hr with h | h
      · simp only [List.mem_singleton] at h
        simp [h]
      · exact loadTimelineReqs_not_retro _ _ r h
    · exact ⟨[(CacheKind.subPanel, id)], rfl, by simp⟩
    · refine ⟨_, rfl, ?_⟩
      intro r hr
      exact loadTimelineReqs_not_retro _ _ r hr
    · exact ⟨[], by simp, by simp⟩
  | subagent_created id =>
    cases hf : findAgent roster id <;>
      exact ⟨[], by simp [applyEvent, hf], by simp⟩
  | agent_removed id => exact ⟨[], (List.append_nil _).symm, by simp⟩
  | subagent_removed id => exact ⟨[], (List.append_nil _).symm, by simp⟩
  | tool_start id ts => exact ⟨[], (List.append_nil _).symm, by simp⟩
  | status_changed id => exact ⟨[], (List.append_nil _).symm, by simp⟩
  | turn_complete id => exact ⟨[], (List.append_nil _).symm, by simp⟩

/-- If the `p`-filtered part of `l` has no duplicates, then an element
satisfying `p` does not survive erasing itself. -/
theorem not_mem_erase_of_filter_nodup {α : Type} [BEq α] [LawfulBEq α]
    {p : α → Bool} {l : List α} {a : α} (hp : p a = true)
    (h : (l.filter p).Nodup) : a ∉ l.erase a := by
  induction l with
  | nil => simp
  | cons x t ih =>
    by_cases hx : x = a
    · subst hx
      rw [List.erase_cons_head]
      rw [List.filter_cons_of_pos hp] at h
      exact fun hmem => (List.nodup_cons.mp h).1 (List.mem_filter.mpr ⟨hmem, hp⟩)
    · have hbe : ¬ (x == a) = true := by simpa using hx
      rw [List.erase_cons_tail hbe]
      intro hmem
      rcases List.mem_cons.mp hmem with h5 | h5
      · exact hx h5.symm
      · have ht : (t.filter p).Nodup := by
          by_cases hpx : p x = true
          · rw [List.filter_cons_of_pos hpx] at h
            exact (List.nodup_cons.mp h).2
          · rwa [List.filter_cons_of_neg (by simpa using hpx)] at h
        exact ih ht h5

/-- Preservation of the retro-cache invariant by every operation. -/
theorem retroInv_step (op : Op) (s : ViewState) (h : retroInv s) :
    retroInv (stepOp op s).1 := by
  obtain ⟨h1, h2, h3⟩ := h
  cases op with
  | ev roster e =>
    obtain ⟨extra, hin, hx⟩ := applyEvent_inflight_extra roster e s
    exact retroInv_of_append s extra ⟨h1, h2, h3⟩ hx _ hin
      (applyEvent_retroLoading roster e s) (applyEvent_retroData roster e s)
  | toggleExpand id =>
    by_cases hc : (alookup s.expanded id).isSome
    · simp only [stepOp, if_pos hc]
      exact retroInv_of_append s [] ⟨h1, h2, h3⟩ (by simp) _
        (List.append_nil _).symm rfl rfl
    · simp only [stepOp, if_neg hc]
      exact retroInv_of_append s [(CacheKind.subPanel, id)] ⟨h1, h2, h3⟩
        (by simp) _ rfl rfl rfl
  | resolveExpand id result =>
    by_cases hc : (CacheKind.subPanel, id) ∈ s.inflight
    · cases result with
      | some v =>
        simp only [stepOp, if_pos hc]
        exact retroInv_of_erase s _ ⟨h1, h2, h3⟩ _ rfl rfl rfl
      | none =>
        simp only [stepOp, if_pos hc]
        exact retroInv_of_erase s _ ⟨h1, h2, h3⟩ _ rfl rfl rfl
    · simp only [stepOp, if_neg hc]
      exact ⟨h1, h2, h3⟩
  | loadTimeline roster =>
    exact retroInv_of_append s _ ⟨h1, h2, h3⟩
      (loadTimelineReqs_not_retro roster s) _ rfl rfl rfl
  | tlRefreshTick roster =>
    by_cases hc : s.mode = ViewMode.timeline ∨ s.mode = ViewMode.dag
    · simp only [stepOp, if_pos hc]
      exact retroInv_of_append _ _ ⟨h1, h2, h3⟩
        (loadTimelineReqs_not_retro roster _) _ rfl rfl rfl
    · simp only [stepOp, if_neg hc]
      exact ⟨h1, h2, h3⟩
  | resolveTimeline id result =>
    by_cases hc : (CacheKind.timeline, id) ∈ s.inflight
    · cases result with
      | some v =>
        simp only [stepOp, if_pos hc]
        exact retroInv_of_erase s _ ⟨h1, h2, h3⟩ _ rfl rfl rfl
      | none =>
        simp only [stepOp, if_pos hc]
        exact retroInv_of_erase s _ ⟨h1, h2, h3⟩ _ rfl rfl rfl
    · simp only [stepOp, if_neg hc]
      exact ⟨h1, h2, h3⟩
  | setMode roster m =>
    by_cases hc : s.mode = m
    · simp only [stepOp, if_pos hc]
      exact ⟨h1, h2, h3⟩
    · by_cases hm : m = ViewMode.timeline
      · simp only [stepOp, if_neg hc, if_pos hm]
        exact retroInv_of_append _ _ ⟨h1, h2, h3⟩
          (loadTimelineReqs_not_retro roster _) _ rfl rfl rfl
      · simp only [stepOp, if_neg hc, if_neg hm]
        exact retroInv_of_append s [] ⟨h1, h2, h3⟩ (by simp) _
          (List.append_nil _).symm rfl rfl
  | dagRender id =>
    cases hd : alookup s.tlData id with
    | none =>
      by_cases hl : id ∉ s.statsLoading
      · simp only [stepOp, hd, if_pos hl]
        exact retroInv_of_append s [(CacheKind.stats, id)] ⟨h1, h2, h3⟩
          (by simp) _ rfl rfl rfl
      · simp only [stepOp, hd, if_neg hl]
        exact ⟨h1, h2, h3⟩
    | some v =>
      by_cases hg : (alookup s.retroData id).isNone ∧ id ∉ s.retroLoading
      · simp only [stepOp, hd, if_pos hg]
        obtain ⟨hdata, hload⟩ := hg
        refine ⟨?_, ?_, ?_⟩
        · show (List.filter _ (s.inflight ++ [(CacheKind.retro, id)])).Nodup
          rw [List.filter_append]
          have hone : List.filter (fun r => r.1 == CacheKind.retro)
              [(CacheKind.retro, id)] = [(CacheKind.retro, id)] := by simp
          rw [hone, List.nodup_append]
          refine ⟨h1, by simp, ?_⟩
          intro r hr hr'
          simp only [List.mem_singleton] at hr'
          subst hr'
          have hmem : (CacheKind.retro, id) ∈ s.inflight :=
            (List.mem_filter.mp hr).1
          exact hload (h2 _ hmem rfl)
        · intro r hr hretro
          show r.2 ∈ id :: s.retroLoading
          rcases List.mem_append.mp hr with h4 | h4
          · exact List.mem_cons_of_mem _ (h2 r h4 hretro)
          · simp only [List.mem_singleton] at h4
            subst h4
            simp
        · intro kv hkv
          obtain ⟨h4, h5⟩ := h3 kv hkv
          have hne : kv.1 ≠ id := by
            intro he
            have := alookup_isSome_of_mem s.retroData kv hkv
            rw [he] at this
            rw [Option.isNone_iff_eq_none] at hdata
            rw [hdata] at this
            simp at this
          constructor
          · show (CacheKind.retro, kv.1) ∉ s.inflight ++ [(CacheKind.retro, id)]
            intro hmem
            rcases List.mem_append.mp hmem with h6 | h6
            · exact h4 h6
            · simp only [List.mem_singleton, Prod.mk.injEq] at h6
              exact hne h6.2
          · show kv.1 ∉ id :: s.retroLoading
            intro hmem
            rcases List.mem_cons.mp hmem with h6 | h6
            · exact hne h6
            · exact h5 h6
      · simp only [stepOp, hd, if_neg hg]
        exact ⟨h1, h2, h3⟩
  | resolveStats id result =>
    by_cases hc : (CacheKind.stats, id) ∈ s.inflight
    · cases result with
      | some v =>
        simp only [stepOp, if_pos hc]
        exact retroInv_of_erase s _ ⟨h1, h2, h3⟩ _ rfl rfl rfl
      | none =>
        simp only [stepOp, if_pos hc]
        exact retroInv_of_erase s _ ⟨h1, h2, h3⟩ _ rfl rfl rfl
    · simp only [stepOp, if_neg hc]
      exact ⟨h1, h2, h3⟩
  | retroResolve id result =>
    by_cases hc : (CacheKind.retro, id) ∈ s.inflight
    · simp only [stepOp, if_pos hc]
      have hnotmem :
          (CacheKind.retro, id) ∉ s.inflight.erase (CacheKind.retro, id) :=
        @not_mem_erase_of_filter_nodup (CacheKind × ℕ) _ _
          (fun r => r.1 == CacheKind.retro) s.inflight (CacheKind.retro, id)
          (by simp) h1
      refine ⟨?_, ?_, ?_⟩
      · show (List.filter _ (s.inflight.erase (CacheKind.retro, id))).Nodup
        exact h1.sublist ((List.erase_sublist _ _).filter _)
      · intro r hr hretro
        show r.2 ∈ sdel s.retroLoading id
        have hrs : r ∈ s.inflight := List.mem_of_mem_erase hr
        have hrl : r.2 ∈ s.retroLoading := h2 r hrs hretro
        rw [mem_sdel_iff]
        refine ⟨hrl, ?_⟩
        intro he
        apply hnotmem
        have : r = (CacheKind.retro, id) := by
          obtain ⟨r1, r2⟩ := r
          simp only at hretro he
          simp [hretro, he]
        rwa [this] at hr
      · intro kv hkv
        rcases mem_aset _ _ _ _ hkv with h4 | h4
        · subst h4
          exact ⟨hnotmem, not_mem_sdel_self _ _⟩
        · obtain ⟨h5, h6⟩ := h3 kv h4
          refine ⟨?_, ?_⟩
          · intro hmem
            exact h5 (List.mem_of_mem_erase hmem)
          · intro hmem
            exact h6 ((mem_sdel_iff _ _ _).mp hmem).1
    · simp only [stepOp, if_neg hc]
      exact ⟨h1, h2, h3⟩

/-! ## Claim C2: one in-flight request per (cache, key) -/

/-- C2 (amended): the retro-analysis cache maintains at most one in-flight
request per session id at all times (the `retroInv` coupling invariant holds
initially and is preserved by every operation), and the sub-agent panel
satisfies the claim's scenario — initiating the panel fetch for a session
twice before the first resolves issues exactly one outbound request, because
the second toggle collapses the panel and issues nothing.  The timeline
tool-history path has no in-flight guard at all and the sub-agent panel's
guard is only the presence of the expansion entry, so both can put duplicate
requests in flight (see the counterexample). -/
theorem cache_single_flight :
    retroInv emptyViewState ∧
    (∀ (op : Op) (s : ViewState), retroInv s → retroInv (stepOp op s).1) ∧
    (∀ (s : ViewState) (id : ℕ), alookup s.expanded id = none →
       (stepOp (.toggleExpand id) s).2 = [(CacheKind.subPanel, id)] ∧
       (stepOp (.toggleExpand id) ((stepOp (.toggleExpand id) s).1)).2 = []) := by
  refine ⟨by decide, fun op s h => retroInv_step op s h, ?_⟩
  intro s id h
  constructor
  · simp [stepOp, h]
  · simp [stepOp, h, alookup_aset_self]

/-- Witness for C2 at concrete operations and states. -/
theorem cache_single_flight_witness :
    retroInv emptyViewState ∧
    retroInv (stepOp (.dagRender 1) emptyViewState).1 ∧
    alookup emptyViewState.expanded 1 = none ∧
    (stepOp (.toggleExpand 1) emptyViewState).2 = [(CacheKind.subPanel, 1)] ∧
    (stepOp (.toggleExpand 1) ((stepOp (.toggleExpand 1) emptyViewState).1)).2 =
      [] :=
  ⟨by decide, cache_single_flight.2.1 (.dagRender 1) emptyViewState (by decide),
   by decide,
   (cache_single_flight.2.2 emptyViewState 1 (by decide)).1,
   (cache_single_flight.2.2 emptyViewState 1 (by decide)).2⟩

/-- Counterexample to C2 as stated: invoking `loadTimelineData` twice before
any response arrives puts two identical timeline requests in flight for the
same session id, and toggling the sub-agent panel expand/collapse/expand
before any response does the same for the sub-agent panel cache — "at most
one in-flight request per (cache, key) pair" fails for both. -/
theorem cache_single_flight_cx :
    ((stepOp (.loadTimeline [snapNoTs])
        ((stepOp (.loadTimeline [snapNoTs]) emptyViewState).1)).1).inflight =
      [(CacheKind.timeline, 1), (CacheKind.timeline, 1)] ∧
    ((stepOp (.toggleExpand 1) ((stepOp (.toggleExpand 1)
        ((stepOp (.toggleExpand 1) emptyViewState).1)).1)).1).inflight =
      [(CacheKind.subPanel, 1), (CacheKind.subPanel, 1)] := by
  exact ⟨by decide, by decide⟩

/-! ## Claim C9: retro fetch failure caches `null` -/

/-- C9: when the retro fetch for a session id fails (HTTP 404 or any fetch
error — `fetchRetroSession` resolves with `null`), the retro cache stores
`null` for that id; afterwards an access for that id issues no retro fetch,
renders no retro panel, and no operation ever removes or changes the cached
`null` (the retro cache is never proactively invalidated). -/
theorem retro_404_cached :
    (∀ (s : ViewState) (id : ℕ), (CacheKind.retro, id) ∈ s.inflight →
       alookup ((stepOp (.retroResolve id none) s).1).retroData id = some none) ∧
    (∀ (s : ViewState) (id : ℕ), retroInv s →
       alookup s.retroData id = some none →
       (stepOp (.dagRender id) s).2.filter (fun r => r.1 == CacheKind.retro) =
         [] ∧
       retroPanelOf s id = "" ∧
       ∀ op : Op, alookup ((stepOp op s).1).retroData id = some none) := by
  constructor
  · intro s id h
    simp [stepOp, h, alookup_aset_self]
  · intro s id hinv hdata
    refine ⟨?_, ?_, ?_⟩
    · cases hd : alookup s.tlData id with
      | none =>
        by_cases hl : id ∉ s.statsLoading
        · simp [stepOp, hd, hl]
        · simp [stepOp, hd, hl]
      | some v =>
        simp only [stepOp, hd]
        split_ifs with hcond
        · rw [Option.isNone_iff_eq_none] at hcond
          rw [hdata] at hcond
          simp at hcond
        · simp
    · have hmem := mem_of_alookup _ _ _ hdata
      have hnl := (hinv.2.2 _ hmem).2
      simp [retroPanelOf, hnl, hdata, renderRetroPanel]
    · intro op
      cases op with
      | ev roster e =>
        show alookup ((applyEvent roster e s).1).retroData id = some none
        rw [applyEvent_retroData]
        exact hdata
      | toggleExpand i =>
        by_cases hc : (alookup s.expanded i).isSome <;>
          simpa [stepOp, hc] using hdata
      | resolveExpand i result =>
        by_cases hc : (CacheKind.subPanel, i) ∈ s.inflight
        · cases result <;> simpa [stepOp, hc] using hdata
        · simpa [stepOp, hc] using hdata
      | loadTimeline roster => simpa [stepOp] using hdata
      | tlRefreshTick roster =>
        by_cases hc : s.mode = ViewMode.timeline ∨ s.mode = ViewMode.dag <;>
          simpa [stepOp, hc] using hdata
      | resolveTimeline i result =>
        by_cases hc : (CacheKind.timeline, i) ∈ s.inflight
        · cases result <;> simpa [stepOp, hc] using hdata
        · simpa [stepOp, hc] using hdata
      | setMode roster m =>
        by_cases hc : s.mode = m
        · simpa [stepOp, hc] using hdata
        · by_cases hm : m = ViewMode.timeline
          · subst hm
            simpa [stepOp, hc] using hdata
          · simpa [stepOp, hc, hm] using hdata
      | dagRender i =>
        cases hd : alookup s.tlData i with
        | none =>
          by_cases hl : i ∉ s.statsLoading <;> simpa [stepOp, hd, hl] using hdata
        | some v =>
          simp only [stepOp, hd]
          split_ifs <;> simpa using hdata
      | resolveStats i result =>
        by_cases hc : (CacheKind.stats, i) ∈ s.inflight
        · cases result <;> simpa [stepOp, hc] using hdata
        · simpa [stepOp, hc] using hdata
      | retroResolve i result =>
        by_cases hc : (CacheKind.retro, i) ∈ s.inflight
        · have hne : i ≠ id := by
            intro he
            subst he
            have hmem := mem_of_alookup _ _ _ hdata
            exact (hinv.2.2 _ hmem).1 hc
          simp only [stepOp, if_pos hc]
          show alookup (aset s.retroData i result) id = some none
          rw [alookup_aset_ne _ _ _ _ hne]
          exact hdata
        · simpa [stepOp, hc] using hdata

/-- A state whose timeline data for session 1 is cached, so that the stats
panel proceeds to the retro fetch. -/
def s9 : ViewState := { emptyViewState with tlData := [(1, [])] }

/-- The state after the retro fetch for session 1 was issued and failed. -/
def s9a : ViewState :=
  (stepOp (.retroResolve 1 none) ((stepOp (.dagRender 1) s9).1)).1

/-- Witness for C9 along a concrete issue/fail/access trace. -/
theorem retro_404_cached_witness :
    (CacheKind.retro, 1) ∈ ((stepOp (.dagRender 1) s9).1).inflight ∧
    retroInv s9a ∧
    alookup s9a.retroData 1 = some none ∧
    ((stepOp (.dagRender 1) s9a).2.filter (fun r => r.1 == CacheKind.retro) =
       [] ∧
     retroPanelOf s9a 1 = "" ∧
     ∀ op : Op, alookup ((stepOp op s9a).1).retroData 1 = some none) :=
  ⟨by decide, by decide,
   retro_404_cached.1 ((stepOp (.dagRender 1) s9).1) 1 (by decide),
   retro_404_cached.2 s9a 1 (by decide) (by decide)⟩

/-! ## Claim C4: tick generation -/

theorem INTERVALS_sorted : INTERVALS.Sorted (· ≤ ·) := by
  unfold INTERVALS
  norm_num [List.sorted_cons]

theorem INTERVALS_pos : ∀ c ∈ INTERVALS, (0 : ℚ) < c := by
  unfold INTERVALS
  norm_num

/-- On a sorted list, `find?` with an upward-closed threshold predicate
returns the least element meeting the threshold. -/
theorem find_sorted_le {l : List ℚ} (hl : l.Sorted (· ≤ ·)) (target : ℚ)
    {x : ℚ} (hfind : l.find? (fun i => decide (target ≤ i)) = some x) :
    x ∈ l ∧ target ≤ x ∧ ∀ y ∈ l, target ≤ y → x ≤ y := by
  induction l with
  | nil => simp at hfind
  | cons a t ih =>
    rw [List.sorted_cons] at hl
    obtain ⟨ha, ht⟩ := hl
    by_cases hp : target ≤ a
    · rw [List.find?_cons_of_pos _ (by simpa using hp)] at hfind
      have hxa : x = a := by simpa using hfind.symm
      subst hxa
      refine ⟨List.mem_cons_self _ _, hp, ?_⟩
      intro y hy _
      rcases List.mem_cons.mp hy with h | h
      · exact le_of_eq h.symm
      · exact ha y h
    · rw [List.find?_cons_of_neg _ (by simpa using hp)] at hfind
      obtain ⟨hx1, hx2, hx3⟩ := ih ht hfind
      refine ⟨List.mem_cons_of_mem _ hx1, hx2, ?_⟩
      intro y hy hty
      rcases List.mem_cons.mp hy with h | h
      · exact absurd (h ▸ hty) hp
      · exact hx3 y h hty

/-- `tlInterval` returns the first candidate at least `dur / 8`, falling back
to the largest candidate (4 h) when the window exceeds all of them. -/
theorem tlInterval_charac (dur : ℚ) :
    tlInterval dur ∈ INTERVALS ∧
    (dur / 8 ≤ tlInterval dur ∨
      (tlInterval dur = 14400000 ∧ ∀ c ∈ INTERVALS, c < dur / 8)) ∧
    (∀ c ∈ INTERVALS, dur / 8 ≤ c → tlInterval dur ≤ c) := by
  unfold tlInterval
  cases hfind : INTERVALS.find? (fun i => decide (dur / 8 ≤ i)) with
  | some x =>
    obtain ⟨h1, h2, h3⟩ := find_sorted_le INTERVALS_sorted (dur / 8) hfind
    exact ⟨by simpa using h1, Or.inl (by simpa using h2), by
      intro c hc htc
      simpa using h3 c hc htc⟩
  | none =>
    have hall := List.find?_eq_none.mp hfind
    refine ⟨by norm_num [INTERVALS], Or.inr ⟨rfl, ?_⟩, ?_⟩
    · intro c hc
      have := hall c hc
      simp only [decide_eq_true_eq] at this
      exact lt_of_not_le this
    · intro c hc htc
      have := hall c hc
      simp only [decide_eq_true_eq] at this
      exact absurd htc this

theorem tlInterval_pos (dur : ℚ) : 0 < tlInterval dur :=
  INTERVALS_pos _ (tlInterval_charac dur).1


/-- The instants of the generated ticks are exactly the multiples of the
chosen interval inside `[start, stop]`. -/
theorem tlTicks_time_mem (start stop : ℚ) (t : ℚ) :
    (∃ m ∈ tlTicks start stop, m.time = t) ↔
      ((∃ k : ℤ, t = (k : ℚ) * tlInterval (stop - start)) ∧
        start ≤ t ∧ t ≤ stop) := by
  simp only [tlTicks]
  set I := tlInterval (stop - start) with hIdef
  have hI : 0 < I := tlInterval_pos _
  set c : ℤ := ⌈start / I⌉ with hcdef
  have hsf : start ≤ (c : ℚ) * I := by
    have h1 : start / I ≤ (c : ℚ) := Int.le_ceil _
    calc start = start / I * I := by field_simp
      _ ≤ (c : ℚ) * I := mul_le_mul_of_nonneg_right h1 (le_of_lt hI)
  constructor
  · rintro ⟨m, hm, rfl⟩
    split_ifs at hm with hfs
    · obtain ⟨k, hk, rfl⟩ := List.mem_map.mp hm
      have hk1 : k < (⌊(stop - (c : ℚ) * I) / I⌋).toNat + 1 := List.mem_range.mp hk
      have hfl : 0 ≤ ⌊(stop - (c : ℚ) * I) / I⌋ :=
        Int.floor_nonneg.mpr (div_nonneg (by linarith) (le_of_lt hI))
      have hk2 : (k : ℤ) ≤ ⌊(stop - (c : ℚ) * I) / I⌋ := by omega
      have hk3 : (k : ℚ) ≤ (stop - (c : ℚ) * I) / I := by
        have := Int.le_floor.mp hk2
        exact_mod_cast this
      have hk4 : (k : ℚ) * I ≤ stop - (c : ℚ) * I :=
        (le_div_iff₀ hI).mp hk3
      have hknn : (0 : ℚ) ≤ (k : ℚ) * I :=
        mul_nonneg (Nat.cast_nonneg k) (le_of_lt hI)
      refine ⟨⟨c + (k : ℤ), by push_cast; ring⟩, by linarith, by linarith⟩
    · simp at hm
  · rintro ⟨⟨k, rfl⟩, h1, h2⟩
    have hck : c ≤ k := by
      rw [hcdef, Int.ceil_le, div_le_iff₀ hI]
      exact_mod_cast h1
    have hfs : (c : ℚ) * I ≤ stop := by
      calc (c : ℚ) * I ≤ (k : ℚ) * I :=
            mul_le_mul_of_nonneg_right (by exact_mod_cast hck) (le_of_lt hI)
        _ ≤ stop := h2
    have hjle : k - c ≤ ⌊(stop - (c : ℚ) * I) / I⌋ := by
      rw [Int.le_floor, le_div_iff₀ hI]
      push_cast
      linarith
    have hjnn : 0 ≤ k - c := by omega
    have hjcast : (((k - c).toNat : ℕ) : ℚ) = ((k : ℚ) - (c : ℚ)) := by
      have h3 : (((k - c).toNat : ℕ) : ℤ) = k - c := Int.toNat_of_nonneg hjnn
      push_cast at h3 ⊢
      exact_mod_cast h3
    rw [if_pos hfs]
    refine ⟨_, List.mem_map.mpr ⟨(k - c).toNat, List.mem_range.mpr (by omega), rfl⟩,
      ?_⟩
    show (c : ℚ) * I + (((k - c).toNat : ℕ) : ℚ) * I = (k : ℚ) * I
    rw [hjcast]
    ring

/-- Each tick is annotated with its percentage offset into the window. -/
theorem tlTicks_pct (start stop : ℚ) :
    ∀ m ∈ tlTicks start stop, m.pct = (m.time - start) / (stop - start) * 100 := by
  intro m hm
  simp only [tlTicks] at hm
  split_ifs at hm with hfs
  · obtain ⟨k, _, rfl⟩ := List.mem_map.mp hm
    rfl
  · simp at hm

theorem tlInterval_3600000 : tlInterval 3600000 = 600000 := by
  have h : (3600000 : ℚ) / 8 = 450000 := by norm_num
  unfold tlInterval INTERVALS
  simp only [h]
  rw [List.find?_cons_of_neg _ (by norm_num), List.find?_cons_of_neg _ (by norm_num),
    List.find?_cons_of_neg _ (by norm_num), List.find?_cons_of_neg _ (by norm_num),
    List.find?_cons_of_neg _ (by norm_num), List.find?_cons_of_neg _ (by norm_num),
    List.find?_cons_of_pos _ (by norm_num)]
  norm_num

/-- A 1-hour window gets between 6 and 10 ticks (in fact 6 or 7). -/
theorem tlTicks_hour_length (start : ℚ) :
    6 ≤ (tlTicks start (start + 3600000)).length ∧
    (tlTicks start (start + 3600000)).length ≤ 10 := by
  have hIv : tlInterval (start + 3600000 - start) = 600000 := by
    rw [show start + 3600000 - start = (3600000 : ℚ) by ring]
    exact tlInterval_3600000
  simp only [tlTicks]
  rw [hIv]
  set f : ℚ := ((⌈start / (600000 : ℚ)⌉ : ℤ) : ℚ) * 600000 with hfdef
  have hc1 : start ≤ f := by
    have h1 : start / (600000 : ℚ) ≤ (⌈start / (600000 : ℚ)⌉ : ℚ) := Int.le_ceil _
    calc start = start / (600000 : ℚ) * 600000 := by norm_num
      _ ≤ f := mul_le_mul_of_nonneg_right h1 (by norm_num)
  have hc2 : f < start + 600000 := by
    have h1 : (⌈start / (600000 : ℚ)⌉ : ℚ) < start / (600000 : ℚ) + 1 :=
      Int.ceil_lt_add_one _
    calc f < (start / (600000 : ℚ) + 1) * 600000 :=
          mul_lt_mul_of_pos_right h1 (by norm_num)
      _ = start + 600000 := by field_simp
  have hfs : f ≤ start + 3600000 := by linarith
  rw [if_pos hfs, List.length_map, List.length_range]
  have hlow : (5 : ℤ) ≤ ⌊(start + 3600000 - f) / (600000 : ℚ)⌋ := by
    rw [Int.le_floor, le_div_iff₀ (by norm_num : (0 : ℚ) < 600000)]
    push_cast
    linarith
  have hhigh : ⌊(start + 3600000 - f) / (600000 : ℚ)⌋ ≤ 6 := by
    have h1 : ((⌊(start + 3600000 - f) / (600000 : ℚ)⌋ : ℤ) : ℚ) ≤
        (start + 3600000 - f) / (600000 : ℚ) := Int.floor_le _
    have h2 : (start + 3600000 - f) / (600000 : ℚ) ≤ 6 := by
      rw [div_le_iff₀ (by norm_num : (0 : ℚ) < 600000)]
      linarith
    exact_mod_cast le_trans h1 h2
  omega

/-- C4: for every window with `stop > start`, the tick engine chooses the
first candidate interval at least (window / 8), falling back to 4 h when the
window exceeds all candidates, and emits one tick at exactly every multiple of
that interval inside `[start, stop]`, each annotated with its percentage
offset into the window; consequently a 1-hour window gets the 10-minute
interval (≤ 1 h and ≥ 7.5 min) and between 6 and 10 ticks. -/
theorem tlTicks_spec :
    (∀ start stop : ℚ, start < stop →
       (tlInterval (stop - start) ∈ INTERVALS ∧
        ((stop - start) / 8 ≤ tlInterval (stop - start) ∨
          (tlInterval (stop - start) = 14400000 ∧
            ∀ c ∈ INTERVALS, c < (stop - start) / 8)) ∧
        (∀ c ∈ INTERVALS, (stop - start) / 8 ≤ c →
          tlInterval (stop - start) ≤ c)) ∧
       (∀ t : ℚ, (∃ m ∈ tlTicks start stop, m.time = t) ↔
          ((∃ k : ℤ, t = (k : ℚ) * tlInterval (stop - start)) ∧
            start ≤ t ∧ t ≤ stop)) ∧
       (∀ m ∈ tlTicks start stop,
          m.pct = (m.time - start) / (stop - start) * 100)) ∧
    (∀ start : ℚ,
       tlInterval 3600000 = 600000 ∧
       (450000 : ℚ) ≤ tlInterval 3600000 ∧ tlInterval 3600000 ≤ 3600000 ∧
       6 ≤ (tlTicks start (start + 3600000)).length ∧
       (tlTicks start (start + 3600000)).length ≤ 10) := by
  constructor
  · intro start stop _h
    exact ⟨tlInterval_charac _, fun t => tlTicks_time_mem start stop t,
      tlTicks_pct start stop⟩
  · intro start
    exact ⟨tlInterval_3600000, by rw [tlInterval_3600000]; norm_num,
      by rw [tlInterval_3600000]; norm_num,
      (tlTicks_hour_length start).1, (tlTicks_hour_length start).2⟩

/-- Witness for C4 at the concrete window [0, 3600000]. -/
theorem tlTicks_spec_witness :
    (0 : ℚ) < 3600000 ∧
    ((tlInterval (3600000 - 0) ∈ INTERVALS ∧
      ((3600000 - 0 : ℚ) / 8 ≤ tlInterval (3600000 - 0) ∨
        (tlInterval (3600000 - 0) = 14400000 ∧
          ∀ c ∈ INTERVALS, c < (3600000 - 0 : ℚ) / 8)) ∧
      (∀ c ∈ INTERVALS, (3600000 - 0 : ℚ) / 8 ≤ c →
        tlInterval (3600000 - 0) ≤ c)) ∧
     (∀ t : ℚ, (∃ m ∈ tlTicks 0 3600000, m.time = t) ↔
        ((∃ k : ℤ, t = (k : ℚ) * tlInterval (3600000 - 0)) ∧
          0 ≤ t ∧ t ≤ 3600000)) ∧
     (∀ m ∈ tlTicks 0 3600000, m.pct = (m.time - 0) / (3600000 - 0) * 100)) :=
  ⟨by norm_num, tlTicks_spec.1 0 3600000 (by norm_num)⟩

/-! ## Hierarchy flattener (source lines 438-453) -/

/-- One emitted node of `buildFlat`. The source attaches
`_rows.get(agent.id) ?? rowFromAgent(agent)` as the node's row; since that row
is a pure lookup on the visited agent's id, we record the visited agent itself
together with the connector prefix (`pfx`, the source's `prefix` field). -/
structure FlatNode where
  agent : AgentSnapshot
  pfx : String
deriving DecidableEq

/-- `agents.map(a => a.id)` (the domain of `ids = new Set(...)`). -/
def agentIds (agents : List AgentSnapshot) : List ℕ :=
  agents.map (fun a => a.id)

/-- `!a.parentId || !ids.has(a.parentId)`: no parent id, or a parent id not
present among the roster's ids. -/
def isRoot (agents : List AgentSnapshot) (a : AgentSnapshot) : Bool :=
  match a.parentId with
  | none => true
  | some p => ! (agentIds agents).contains p

/-- `agents.filter(a => !a.parentId || !ids.has(a.parentId))`. -/
def rootsOf (agents : List AgentSnapshot) : List AgentSnapshot :=
  agents.filter (isRoot agents)

/-- `agents.filter(a => a.parentId === agent.id)`, in roster order. -/
def childrenOf (agents : List AgentSnapshot) (a : AgentSnapshot) :
    List AgentSnapshot :=
  agents.filter (fun c => c.parentId == some a.id)

/-- Pair each list element with its `i === list.length - 1` flag. -/
def withLast {α : Type} : List α → List (α × Bool)
  | [] => []
  | [x] => [(x, true)]
  | x :: y :: t => (x, false) :: withLast (y :: t)

mutual

/-- The recursive `visit(agent, inherited, isLast, depth)` of `buildFlat`,
with explicit fuel modelling the JavaScript call stack: `none` means the
recursion exceeded the given depth budget. -/
def visitF (agents : List AgentSnapshot) :
    ℕ → AgentSnapshot → String → Bool → ℕ → Option (List FlatNode)
  | 0, _, _, _, _ => none
  | fuel + 1, a, inherited, isLast, depth =>
    let connector :=
      if depth == 0 then "" else if isLast then "└─ " else "├─ "
    let next :=
      if depth == 0 then "" else inherited ++ (if isLast then "   " else "│  ")
    match visitChildrenF agents fuel (withLast (childrenOf agents a)) next
        (depth + 1) with
    | none => none
    | some rest => some (⟨a, inherited ++ connector⟩ :: rest)
termination_by fuel _ _ _ _ => (fuel, 0)

/-- `children.forEach((c, i) => visit(c, next, i === children.length - 1,
depth + 1))`, sequencing the recursive visits. -/
def visitChildrenF (agents : List AgentSnapshot) :
    ℕ → List (AgentSnapshot × Bool) → String → ℕ → Option (List FlatNode)
  | _, [], _, _ => some []
  | fuel, (c, last) :: cs, inherited, depth =>
    match visitF agents fuel c inherited last depth with
    | none => none
    | some xs =>
      match visitChildrenF agents fuel cs inherited depth with
      | none => none
      | some ys => some (xs ++ ys)
termination_by fuel l _ _ => (fuel, l.length + 1)

end

/-- `buildFlat` with an explicit depth budget:
`roots.forEach((r, i) => visit(r, "", i === roots.length - 1, 0))`. -/
def buildFlatOpt (agents : List AgentSnapshot) (fuel : ℕ) :
    Option (List FlatNode) :=
  visitChildrenF agents fuel (withLast (rootsOf agents)) "" 0

/-- `buildFlat()` (source lines 438-453). The recursion depth never exceeds
the roster size on the rosters the function terminates on, so the roster
length is the canonical budget. -/
def buildFlat (agents : List AgentSnapshot) : List FlatNode :=
  (buildFlatOpt agents agents.length).getD []

/-- Follow one parent link: the roster agent whose id is `a.parentId`. -/
def parentHop (agents : List AgentSnapshot) (a : AgentSnapshot) :
    Option AgentSnapshot :=
  match a.parentId with
  | none => none
  | some p => agents.find? (fun x => x.id == p)

/-- The ancestor chain of an agent: itself, its parent, …, up to the first
root, or `none` when the parent links never reach a root within the given
number of hops (a cycle). -/
def chainOf (agents : List AgentSnapshot) : ℕ → AgentSnapshot →
    Option (List AgentSnapshot)
  | 0, a => if isRoot agents a then some [a] else none
  | fuel + 1, a =>
    if isRoot agents a then some [a]
    else
      match parentHop agents a with
      | none => none
      | some p => (chainOf agents fuel p).map (a :: ·)

/-! ### Ancestor chains -/

theorem chain_head (agents : List AgentSnapshot) (f : ℕ) (a : AgentSnapshot)
    (l : List AgentSnapshot) (h : chainOf agents f a = some l) :
    ∃ t, l = a :: t := by
  cases f with
  | zero =>
    unfold chainOf at h
    split_ifs at h
    · injection h with h
      exact ⟨[], h.symm⟩
  | succ g =>
    unfold chainOf at h
    split_ifs at h
    · injection h with h
      exact ⟨[], h.symm⟩
    · cases hp : parentHop agents a with
      | none => simp [hp] at h
      | some p =>
        simp only [hp] at h
        cases hc : chainOf agents g p with
        | none => rw [hc] at h; simp at h
        | some l' =>
          rw [hc] at h
          simp only [Option.map_some'] at h
          injection h with h
          exact ⟨l', h.symm⟩

theorem chain_ne_nil (agents : List AgentSnapshot) (f : ℕ) (a : AgentSnapshot)
    (l : List AgentSnapshot) (h : chainOf agents f a = some l) : l ≠ [] := by
  obtain ⟨t, rfl⟩ := chain_head agents f a l h
  simp

theorem chain_length_le_fuel (agents : List AgentSnapshot) :
    ∀ (f : ℕ) (a : AgentSnapshot) (l : List AgentSnapshot),
      chainOf agents f a = some l → l.length ≤ f + 1 := by
  intro f
  induction f with
  | zero =>
    intro a l h
    unfold chainOf at h
    split_ifs at h
    injection h with h
    simp [h.symm]
  | succ g ih =>
    intro a l h
    unfold chainOf at h
    split_ifs at h
    · injection h with h
      simp [h.symm]
    · cases hp : parentHop agents a with
      | none => simp [hp] at h
      | some p =>
        simp only [hp] at h
        cases hc : chainOf agents g p with
        | none => rw [hc] at h; simp at h
        | some l' =>
          rw [hc] at h
          simp only [Option.map_some'] at h
          injection h with h
          have := ih p l' hc
          simp [h.symm]
          omega

theorem chain_stable (agents : List AgentSnapshot) :
    ∀ (f : ℕ) (a : AgentSnapshot) (l : List AgentSnapshot) (g : ℕ),
      chainOf agents f a = some l → l.length ≤ g + 1 →
      chainOf agents g a = some l := by
  intro f
  induction f with
  | zero =>
    intro a l g h _
    unfold chainOf at h
    split_ifs at h with hr
    injection h with h
    subst h
    cases g with
    | zero => simp [chainOf, hr]
    | succ g' => simp [chainOf, hr]
  | succ f' ih =>
    intro a l g h hlen
    unfold chainOf at h
    split_ifs at h with hr
    · injection h with h
      subst h
      cases g with
      | zero => simp [chainOf, hr]
      | succ g' => simp [chainOf, hr]
    · cases hp : parentHop agents a with
      | none => simp [hp] at h
      | some p =>
        simp only [hp] at h
        cases hc : chainOf agents f' p with
        | none => rw [hc] at h; simp at h
        | some l' =>
          rw [hc] at h
          simp only [Option.map_some'] at h
          injection h with h
          subst h
          obtain ⟨t, rfl⟩ := chain_head agents f' p l' hc
          have hg : ∃ g', g = g' + 1 := by
            cases g with
            | zero => simp at hlen
            | succ g' => exact ⟨g', rfl⟩
          obtain ⟨g', rfl⟩ := hg
          have hrec : chainOf agents g' p = some (p :: t) := by
            apply ih
            · exact hc
            · simp at hlen ⊢
              omega
          unfold chainOf
          rw [if_neg (by simpa using hr)]
          simp only [hp, hrec, Option.map_some']

theorem chain_det (agents : List AgentSnapshot) (f g : ℕ) (a : AgentSnapshot)
    (l1 l2 : List AgentSnapshot) (h1 : chainOf agents f a = some l1)
    (h2 : chainOf agents g a = some l2) : l1 = l2 := by
  have hl1 := chain_length_le_fuel agents f a l1 h1
  have hl2 := chain_length_le_fuel agents g a l2 h2
  have e1 : chainOf agents (max f g) a = some l1 :=
    chain_stable agents f a l1 (max f g) h1 (by omega)
  have e2 : chainOf agents (max f g) a = some l2 :=
    chain_stable agents g a l2 (max f g) h2 (by omega)
  rw [e1] at e2
  injection e2

theorem isRoot_chain (agents : List AgentSnapshot) (f : ℕ) (a : AgentSnapshot)
    (h : isRoot agents a = true) : chainOf agents f a = some [a] := by
  cases f with
  | zero => simp [chainOf, h]
  | succ g => simp [chainOf, h]

theorem parentHop_mem (agents : List AgentSnapshot) (a p : AgentSnapshot)
    (h : parentHop agents a = some p) : p ∈ agents := by
  unfold parentHop at h
  cases hq : a.parentId with
  | none => rw [hq] at h; simp at h
  | some q =>
    rw [hq] at h
    exact List.mem_of_find?_eq_some h

theorem chain_mem_agents (agents : List AgentSnapshot) :
    ∀ (f : ℕ) (a : AgentSnapshot) (l : List AgentSnapshot),
      a ∈ agents → chainOf agents f a = some l → ∀ y ∈ l, y ∈ agents := by
  intro f
  induction f with
  | zero =>
    intro a l ha h
    unfold chainOf at h
    split_ifs at h
    injection h with h
    subst h
    intro y hy
    simpa using (List.mem_singleton.mp hy) ▸ ha
  | succ g ih =>
    intro a l ha h
    unfold chainOf at h
    split_ifs at h
    · injection h with h
      subst h
      intro y hy
      simpa using (List.mem_singleton.mp hy) ▸ ha
    · cases hp : parentHop agents a with
      | none => simp [hp] at h
      | some p =>
        simp only [hp] at h
        cases hc : chainOf agents g p with
        | none => rw [hc] at h; simp at h
        | some l' =>
          rw [hc] at h
          simp only [Option.map_some'] at h
          injection h with h
          subst h
          intro y hy
          rcases List.mem_cons.mp hy with h5 | h5
          · exact h5 ▸ ha
          · exact ih p l' (parentHop_mem agents a p hp) hc y h5

theorem chain_split (agents : List AgentSnapshot) :
    ∀ (f : ℕ) (a : AgentSnapshot) (l : List AgentSnapshot),
      chainOf agents f a = some l →
      ∀ (u : List AgentSnapshot) (y : AgentSnapshot) (v : List AgentSnapshot),
        l = u ++ y :: v → ∃ g, chainOf agents g y = some (y :: v) := by
  intro f
  induction f with
  | zero =>
    intro a l h u y v hsplit
    unfold chainOf at h
    split_ifs at h with hr
    injection h with h
    subst h
    cases u with
    | nil =>
      simp at hsplit
      obtain ⟨h1, h2⟩ := hsplit
      subst h1
      subst h2
      exact ⟨0, isRoot_chain agents 0 a hr⟩
    | cons x u' => simp at hsplit
  | succ g ih =>
    intro a l h u y v hsplit
    unfold chainOf at h
    split_ifs at h with hr
    · injection h with h
      subst h
      cases u with
      | nil =>
        simp at hsplit
        obtain ⟨h1, h2⟩ := hsplit
        subst h1
        subst h2
        exact ⟨0, isRoot_chain agents 0 a hr⟩
      | cons x u' => simp at hsplit
    · cases hp : parentHop agents a with
      | none => simp [hp] at h
      | some p =>
        simp only [hp] at h
        cases hc : chainOf agents g p with
        | none => rw [hc] at h; simp at h
        | some l' =>
          rw [hc] at h
          simp only [Option.map_some'] at h
          injection h with h
          subst h
          cases u with
          | nil =>
            simp at hsplit
            obtain ⟨h1, h2⟩ := hsplit
            subst h1
            subst h2
            exact ⟨g + 1, by
              unfold chainOf
              rw [if_neg (by simpa using hr)]
              simp only [hp, hc, Option.map_some']⟩
          | cons x u' =>
            simp only [List.cons_append, List.cons.injEq] at hsplit
            exact ih p l' hc u' y v hsplit.2

theorem chain_nodup (agents : List AgentSnapshot) :
    ∀ (f : ℕ) (a : AgentSnapshot) (l : List AgentSnapshot),
      chainOf agents f a = some l → l.Nodup := by
  intro f
  induction f with
  | zero =>
    intro a l h
    unfold chainOf at h
    split_ifs at h
    injection h with h
    simp [h.symm]
  | succ g ih =>
    intro a l h
    unfold chainOf at h
    split_ifs at h with hr
    · injection h with h
      simp [h.symm]
    · cases hp : parentHop agents a with
      | none => simp [hp] at h
      | some p =>
        simp only [hp] at h
        cases hc : chainOf agents g p with
        | none => rw [hc] at h; simp at h
        | some l' =>
          rw [hc] at h
          simp only [Option.map_some'] at h
          injection h with h
          subst h
          rw [List.nodup_cons]
          refine ⟨?_, ih p l' hc⟩
          intro hmem
          obtain ⟨u, v, huv⟩ := List.append_of_mem hmem
          obtain ⟨g2, hg2⟩ := chain_split agents g p l' hc u a v huv
          have horig : chainOf agents (g + 1) a = some (a :: l') := by
            unfold chainOf
            rw [if_neg (by simpa using hr)]
            simp only [hp, hc, Option.map_some']
          have := chain_det agents g2 (g + 1) a (a :: v) (a :: l') hg2 horig
          injection this with _ hv
          have : l'.length = u.length + 1 + v.length := by
            rw [huv]
            simp
            omega
          rw [← hv] at this
          omega

/-- With pairwise-distinct ids, the roster lookup by an agent's id finds that
agent. -/
theorem find_id_unique (agents : List AgentSnapshot)
    (hN : (agentIds agents).Nodup) (a : AgentSnapshot) (ha : a ∈ agents) :
    agents.find? (fun x => x.id == a.id) = some a := by
  induction agents with
  | nil => simp at ha
  | cons b t ih =>
    rw [agentIds, List.map_cons, List.nodup_cons] at hN
    obtain ⟨hb, ht⟩ := hN
    rcases List.mem_cons.mp ha with h | h
    · subst h
      rw [List.find?_cons_of_pos _ (by simp)]
    · have hne : (b.id == a.id) = false := by
        simp only [beq_eq_false_iff_ne, ne_eq]
        intro he
        exact hb (he ▸ List.mem_map_of_mem (fun x => x.id) h)
      rw [List.find?_cons_of_neg _ (by simp [hne])]
      exact ih ht h

theorem agents_nodup (agents : List AgentSnapshot)
    (hN : (agentIds agents).Nodup) : agents.Nodup :=
  List.Nodup.of_map _ hN

theorem chain_length_le (agents : List AgentSnapshot) (f : ℕ)
    (a : AgentSnapshot) (ha : a ∈ agents) (l : List AgentSnapshot)
    (h : chainOf agents f a = some l) : l.length ≤ agents.length :=
  (List.subperm_of_subset (chain_nodup agents f a l h)
    (fun _ hy => chain_mem_agents agents f a l ha h _ hy)).length_le

/-- A child's chain is its parent's chain with itself prepended. -/
theorem chain_child (agents : List AgentSnapshot)
    (hN : (agentIds agents).Nodup) (c a : AgentSnapshot)
    (ha : a ∈ agents) (hpar : c.parentId = some a.id)
    (f : ℕ) (la : List AgentSnapshot) (h : chainOf agents f a = some la) :
    ∀ g, la.length ≤ g → chainOf agents g c = some (c :: la) := by
  have hmemid : a.id ∈ agentIds agents :=
    List.mem_map_of_mem (fun x => x.id) ha
  have hroot : isRoot agents c = false := by
    unfold isRoot
    rw [hpar]
    simp [hmemid]
  have hhop : parentHop agents c = some a := by
    unfold parentHop
    rw [hpar]
    exact find_id_unique agents hN a ha
  have hlen : 1 ≤ la.length := by
    obtain ⟨t, rfl⟩ := chain_head agents f a la h
    simp
  intro g hg
  have hg1 : ∃ g', g = g' + 1 := by
    cases g with
    | zero => omega
    | succ g' => exact ⟨g', rfl⟩
  obtain ⟨g', rfl⟩ := hg1
  have hrec : chainOf agents g' a = some la :=
    chain_stable agents f a la g' h (by omega)
  unfold chainOf
  rw [if_neg (by simp [hroot])]
  simp only [hhop, hrec, Option.map_some']

/-- A chain ends in a root, and only its last element is a root. -/
theorem chain_last_root (agents : List AgentSnapshot) :
    ∀ (f : ℕ) (a : AgentSnapshot) (l : List AgentSnapshot),
      chainOf agents f a = some l →
      ∃ l0 r, l = l0 ++ [r] ∧ isRoot agents r = true ∧
        ∀ y ∈ l0, isRoot agents y = false := by
  intro f
  induction f with
  | zero =>
    intro a l h
    unfold chainOf at h
    split_ifs at h with hr
    injection h with h
    subst h
    exact ⟨[], a, rfl, hr, by simp⟩
  | succ g ih =>
    intro a l h
    unfold chainOf at h
    split_ifs at h with hr
    · injection h with h
      subst h
      exact ⟨[], a, rfl, hr, by simp⟩
    · cases hp : parentHop agents a with
      | none => simp [hp] at h
      | some p =>
        simp only [hp] at h
        cases hc : chainOf agents g p with
        | none => rw [hc] at h; simp at h
        | some l' =>
          rw [hc] at h
          simp only [Option.map_some'] at h
          injection h with h
          subst h
          obtain ⟨l0, r, hl, hroot, hinit⟩ := ih p l' hc
          refine ⟨a :: l0, r, by simp [hl], hroot, ?_⟩
          intro y hy
          rcases List.mem_cons.mp hy with h5 | h5
          · subst h5
            simpa using hr
          · exact hinit y h5

/-! ### Utilities for the flattener proofs -/

/-- The agent sequence of a flattened output. -/
def AgentSeq (l : List FlatNode) : List AgentSnapshot := l.map FlatNode.agent

theorem withLast_map_fst {α : Type} : ∀ l : List α,
    (withLast l).map Prod.fst = l := by
  intro l
  induction l with
  | nil => rfl
  | cons x t ih =>
    cases t with
    | nil => rfl
    | cons y t' => simp [withLast, ih]

theorem suffix_eq_of_length {α : Type} {l s1 s2 : List α} (h1 : s1 <:+ l)
    (h2 : s2 <:+ l) (hl : s1.length = s2.length) : s1 = s2 := by
  obtain ⟨u1, hu1⟩ := h1
  obtain ⟨u2, hu2⟩ := h2
  rw [← hu1] at hu2
  have hlen : u2.length = u1.length := by
    have := congrArg List.length hu2
    simp at this
    omega
  exact ((List.append_inj hu2 hlen).2).symm

theorem chain_cons_structure (agents : List AgentSnapshot) (g : ℕ)
    (y : AgentSnapshot) (t : List AgentSnapshot)
    (h : chainOf agents g y = some (y :: t)) (ht : t ≠ []) :
    ∃ p g', parentHop agents y = some p ∧ chainOf agents g' p = some t := by
  cases g with
  | zero =>
    unfold chainOf at h
    split_ifs at h
    injection h with h
    injection h with _ h2
    exact absurd h2.symm ht
  | succ g' =>
    unfold chainOf at h
    split_ifs at h
    · injection h with h
      injection h with _ h2
      exact absurd h2.symm ht
    · cases hp : parentHop agents y with
      | none => simp [hp] at h
      | some p =>
        simp only [hp] at h
        cases hc : chainOf agents g' p with
        | none => rw [hc] at h; simp at h
        | some l' =>
          rw [hc] at h
          simp only [Option.map_some'] at h
          injection h with h
          injection h with _ h2
          exact ⟨p, g', rfl, h2 ▸ hc⟩

theorem chain_suffix_of_mem (agents : List AgentSnapshot) (f : ℕ)
    (x : AgentSnapshot) (lx : List AgentSnapshot)
    (hx : chainOf agents f x = some lx) (y : AgentSnapshot) (hy : y ∈ lx) :
    ∃ g v, chainOf agents g y = some (y :: v) ∧ (y :: v) <:+ lx := by
  obtain ⟨u, v, hl⟩ := List.append_of_mem hy
  obtain ⟨g, hg⟩ := chain_split agents f x lx hx u y v hl
  exact ⟨g, v, hg, ⟨u, hl.symm⟩⟩

/-- A chain of the form `[c]` belongs to a root. -/
theorem chain_singleton_root (agents : List AgentSnapshot) (g : ℕ)
    (c : AgentSnapshot) (h : chainOf agents g c = some [c]) :
    isRoot agents c = true := by
  cases g with
  | zero =>
    unfold chainOf at h
    split_ifs at h with hr
    · exact hr
  | succ g' =>
    unfold chainOf at h
    split_ifs at h with hr
    · exact hr
    · cases hp : parentHop agents c with
      | none => simp [hp] at h
      | some p =>
        simp only [hp] at h
        cases hc : chainOf agents g' p with
        | none => rw [hc] at h; simp at h
        | some l' =>
          rw [hc] at h
          simp only [Option.map_some'] at h
          injection h with h
          injection h with _ h2
          exact absurd h2 (chain_ne_nil agents g' p l' hc)

/-- A child of `a` occurring in some chain carries `a`'s chain right below
itself. -/
theorem chain_child_suffix (agents : List AgentSnapshot)
    (hN : (agentIds agents).Nodup) (f : ℕ) (x : AgentSnapshot)
    (lx : List AgentSnapshot) (hx : chainOf agents f x = some lx)
    (a c : AgentSnapshot) (ha : a ∈ agents) (hcp : c.parentId = some a.id)
    (hc : c ∈ lx) :
    ∃ g la, chainOf agents g a = some la ∧ (c :: la) <:+ lx := by
  obtain ⟨g, v, hg, hs⟩ := chain_suffix_of_mem agents f x lx hx c hc
  have hnotroot : isRoot agents c = false := by
    unfold isRoot
    rw [hcp]
    have hmem : a.id ∈ agentIds agents := List.mem_map_of_mem (fun w => w.id) ha
    simp [hmem]
  cases hv : v with
  | nil =>
    rw [hv] at hg
    have := chain_singleton_root agents g c hg
    rw [hnotroot] at this
    exact absurd this (by simp)
  | cons z v' =>
    have hvne : v ≠ [] := by simp [hv]
    obtain ⟨p, g', hp, hcp'⟩ := chain_cons_structure agents g c v hg hvne
    have hpa : p = a := by
      unfold parentHop at hp
      simp only [hcp] at hp
      rw [find_id_unique agents hN a ha] at hp
      injection hp with hp
      exact hp.symm
    subst hpa
    exact ⟨g', v, hcp', hs⟩

/-- At most one child of `a` occurs in any chain. -/
theorem chain_child_unique (agents : List AgentSnapshot)
    (hN : (agentIds agents).Nodup) (f : ℕ) (x : AgentSnapshot)
    (lx : List AgentSnapshot) (hx : chainOf agents f x = some lx)
    (a c1 c2 : AgentSnapshot) (ha : a ∈ agents)
    (h1p : c1.parentId = some a.id) (h2p : c2.parentId = some a.id)
    (h1 : c1 ∈ lx) (h2 : c2 ∈ lx) : c1 = c2 := by
  obtain ⟨g1, la1, hg1, hs1⟩ :=
    chain_child_suffix agents hN f x lx hx a c1 ha h1p h1
  obtain ⟨g2, la2, hg2, hs2⟩ :=
    chain_child_suffix agents hN f x lx hx a c2 ha h2p h2
  have heq : la1 = la2 := chain_det agents g1 g2 a la1 la2 hg1 hg2
  subst heq
  have := suffix_eq_of_length hs1 hs2 (by simp)
  injection this

/-- No child of `a` occurs in `a`'s own chain. -/
theorem chain_no_self_child (agents : List AgentSnapshot)
    (hN : (agentIds agents).Nodup) (f : ℕ) (a : AgentSnapshot)
    (la : List AgentSnapshot) (ha : a ∈ agents)
    (hx : chainOf agents f a = some la) (c : AgentSnapshot)
    (hcp : c.parentId = some a.id) (hc : c ∈ la) : False := by
  obtain ⟨g, la', hg, hs⟩ :=
    chain_child_suffix agents hN f a la hx a c ha hcp hc
  have heq : la' = la := chain_det agents g f a la' la hg hx
  subst heq
  have hlen := List.IsSuffix.length_le hs
  simp at hlen

theorem countP_eq_one_of_unique {α : Type} (l : List α) (p : α → Bool)
    (hnd : l.Nodup) (a : α) (ha : a ∈ l) (hpa : p a = true)
    (huniq : ∀ b ∈ l, p b = true → b = a) : l.countP p = 1 := by
  induction l with
  | nil => simp at ha
  | cons x t ih =>
    rw [List.nodup_cons] at hnd
    rcases List.mem_cons.mp ha with h | h
    · subst h
      rw [List.countP_cons_of_pos _ _ hpa]
      have hz : t.countP p = 0 := by
        rw [List.countP_eq_zero]
        intro b hb hpb
        exact hnd.1 ((huniq b (List.mem_cons_of_mem _ hb) hpb) ▸ hb)
      omega
    · have hpx : p x = false := by
        by_contra hh
        have hxa : x = a :=
          huniq x (List.mem_cons_self _ _) (by simpa using hh)
        subst hxa
        exact hnd.1 h
      rw [List.countP_cons_of_neg _ _ (by simp [hpx])]
      exact ih hnd.2 h (fun b hb hpb => huniq b (List.mem_cons_of_mem _ hb) hpb)

theorem sublist_flatten_of_mem {α : Type} {o : List α} {L : List (List α)}
    (h : o ∈ L) : List.Sublist o L.flatten := by
  induction L with
  | nil => simp at h
  | cons x t ih =>
    rcases List.mem_cons.mp h with h1 | h1
    · subst h1
      simp only [List.flatten_cons]
      exact List.sublist_append_left _ _
    · exact (ih h1).trans
        (by simp only [List.flatten_cons]; exact List.sublist_append_right _ _)

theorem pair_sublist_flatten {α : Type} {x y : α} {L1 L2 L3 : List (List α)}
    {o1 o2 : List α} (hx : x ∈ o1) (hy : y ∈ o2) :
    List.Sublist [x, y] ((L1 ++ o1 :: (L2 ++ o2 :: L3)).flatten) := by
  have h1 : List.Sublist [x] (L1.flatten ++ o1) :=
    (List.singleton_sublist.mpr hx).trans (List.sublist_append_right _ _)
  have h2 : List.Sublist [y] (L2.flatten ++ (o2 ++ L3.flatten)) :=
    ((List.singleton_sublist.mpr hy).trans
      (List.sublist_append_left _ _)).trans (List.sublist_append_right _ _)
  have h3 := h1.append h2
  simpa [List.flatten_append, List.flatten_cons, List.append_assoc] using h3

theorem forall₂_append_decomp {α β : Type} {R : α → β → Prop} :
    ∀ {l1 l2 : List α} {outs : List β}, List.Forall₂ R (l1 ++ l2) outs →
      ∃ o1 o2, outs = o1 ++ o2 ∧ List.Forall₂ R l1 o1 ∧ List.Forall₂ R l2 o2 := by
  intro l1
  induction l1 with
  | nil =>
    intro l2 outs h
    exact ⟨[], outs, rfl, List.Forall₂.nil, h⟩
  | cons x t ih =>
    intro l2 outs h
    cases h with
    | cons hx ht =>
      obtain ⟨o1, o2, rfl, hf1, hf2⟩ := ih ht
      exact ⟨_ :: o1, o2, rfl, List.Forall₂.cons hx hf1, hf2⟩

theorem parentHop_parentId (agents : List AgentSnapshot) (c p : AgentSnapshot)
    (h : parentHop agents c = some p) : c.parentId = some p.id := by
  unfold parentHop at h
  cases hq : c.parentId with
  | none => rw [hq] at h; simp at h
  | some q =>
    rw [hq] at h
    have := List.find?_some h
    simp at this
    rw [this]

theorem id_inj (agents : List AgentSnapshot) (hN : (agentIds agents).Nodup)
    (a b : AgentSnapshot) (ha : a ∈ agents) (hb : b ∈ agents)
    (h : a.id = b.id) : a = b :=
  List.inj_on_of_nodup_map hN ha hb h

theorem chain_self_mem (agents : List AgentSnapshot) (f : ℕ)
    (a : AgentSnapshot) (la : List AgentSnapshot)
    (h : chainOf agents f a = some la) : a ∈ la := by
  obtain ⟨t, rfl⟩ := chain_head agents f a la h
  exact List.mem_cons_self _ _

/-- Every non-head member of a chain has a chain member that is its child:
stepping one link down the chain from `a` towards the chain's head. -/
theorem chain_step_down (agents : List AgentSnapshot) (f : ℕ)
    (x : AgentSnapshot) (lx : List AgentSnapshot)
    (hx : chainOf agents f x = some lx) (a : AgentSnapshot) (ha : a ∈ lx)
    (hne : a ≠ x) : ∃ c0, c0 ∈ lx ∧ c0.parentId = some a.id := by
  obtain ⟨t, rfl⟩ := chain_head agents f x lx hx
  have hat : a ∈ t := by
    rcases List.mem_cons.mp ha with h | h
    · exact absurd h hne
    · exact h
  obtain ⟨t1, t2, rfl⟩ := List.append_of_mem hat
  rcases List.eq_nil_or_concat (x :: t1) with hcon | ⟨l', c0, hcon⟩
  · simp at hcon
  · have hsplit : x :: (t1 ++ a :: t2) = l' ++ c0 :: a :: t2 := by
      have h2 : (x :: t1) ++ a :: t2 = l' ++ c0 :: a :: t2 := by
        rw [hcon]
        simp
      simpa using h2
    obtain ⟨g, hg⟩ := chain_split agents f x _ hx _ _ _ hsplit
    have hne2 : a :: t2 ≠ [] := by simp
    obtain ⟨p, g', hp, hcp'⟩ := chain_cons_structure agents g _ _ hg hne2
    obtain ⟨t', ht'⟩ := chain_head agents g' p _ hcp'
    have hpa : p = a := by
      injection ht' with h1 _
      exact h1.symm
    subst hpa
    refine ⟨c0, ?_, parentHop_parentId agents _ _ hp⟩
    have hc0 : c0 ∈ x :: t1 := by
      rw [hcon]
      simp
    rcases List.mem_cons.mp hc0 with h | h
    · exact h ▸ List.mem_cons_self _ _
    · exact List.mem_cons_of_mem _ (List.mem_append_left _ h)

theorem mem_childrenOf (agents : List AgentSnapshot) (a c : AgentSnapshot) :
    c ∈ childrenOf agents a ↔ c ∈ agents ∧ c.parentId = some a.id := by
  unfold childrenOf
  rw [List.mem_filter]
  constructor
  · rintro ⟨h1, h2⟩
    exact ⟨h1, by simpa using h2⟩
  · rintro ⟨h1, h2⟩
    exact ⟨h1, by simpa using h2⟩

theorem childrenOf_nodup (agents : List AgentSnapshot)
    (hN : (agentIds agents).Nodup) (a : AgentSnapshot) :
    (childrenOf agents a).Nodup :=
  (agents_nodup agents hN).filter _

theorem mem_withLast_fst {α : Type} (l : List α) (cb : α × Bool)
    (h : cb ∈ withLast l) : cb.1 ∈ l := by
  have := List.mem_map_of_mem Prod.fst h
  rwa [withLast_map_fst] at this

theorem mem_fst_withLast {α : Type} (l : List α) (c : α) (h : c ∈ l) :
    ∃ b, (c, b) ∈ withLast l := by
  have : c ∈ (withLast l).map Prod.fst := by rwa [withLast_map_fst]
  obtain ⟨cb, hcb, hfst⟩ := List.mem_map.mp this
  exact ⟨cb.2, by rwa [show (c, cb.2) = cb from Prod.ext hfst.symm rfl]⟩

theorem forall₂_mem_right {α β : Type} {R : α → β → Prop} :
    ∀ {l₁ : List α} {l₂ : List β}, List.Forall₂ R l₁ l₂ → ∀ b ∈ l₂,
      ∃ a ∈ l₁, R a b := by
  intro l₁
  induction l₁ with
  | nil =>
    intro l₂ h b hb
    cases h
    simp at hb
  | cons x t ih =>
    intro l₂ h b hb
    cases h with
    | cons hR hF =>
      rcases List.mem_cons.mp hb with h1 | h1
      · exact ⟨x, List.mem_cons_self _ _, h1 ▸ hR⟩
      · obtain ⟨a, ha, hab⟩ := ih hF b h1
        exact ⟨a, List.mem_cons_of_mem _ ha, hab⟩

theorem forall₂_mem_left {α β : Type} {R : α → β → Prop} :
    ∀ {l₁ : List α} {l₂ : List β}, List.Forall₂ R l₁ l₂ → ∀ a ∈ l₁,
      ∃ b ∈ l₂, R a b := by
  intro l₁
  induction l₁ with
  | nil =>
    intro l₂ h a ha
    simp at ha
  | cons x t ih =>
    intro l₂ h a ha
    cases h with
    | cons hR hF =>
      rcases List.mem_cons.mp ha with h1 | h1
      · exact ⟨_, List.mem_cons_self _ _, h1 ▸ hR⟩
      · obtain ⟨b, hb, hab⟩ := ih hF a h1
        exact ⟨b, List.mem_cons_of_mem _ hb, hab⟩

theorem forall₂_imp_of_mem {α β : Type} {R S : α → β → Prop} :
    ∀ {l₁ : List α} {l₂ : List β}, (∀ a b, a ∈ l₁ → R a b → S a b) →
      List.Forall₂ R l₁ l₂ → List.Forall₂ S l₁ l₂ := by
  intro l₁
  induction l₁ with
  | nil =>
    intro l₂ h hf
    cases hf
    exact List.Forall₂.nil
  | cons x t ih =>
    intro l₂ h hf
    cases hf with
    | cons hR hF =>
      exact List.Forall₂.cons (h _ _ (List.mem_cons_self _ _) hR)
        (ih (fun a b ha => h a b (List.mem_cons_of_mem _ ha)) hF)

theorem countP_flatten_forall₂ {α β : Type} (p : α → Bool) (f : β → ℕ) :
    ∀ {l : List β} {outs : List (List α)},
      List.Forall₂ (fun b o => o.countP p = f b) l outs →
      outs.flatten.countP p = (l.map f).sum := by
  intro l
  induction l with
  | nil =>
    intro outs h
    cases h
    rfl
  | cons b t ih =>
    intro outs h
    cases h with
    | cons hR hF =>
      simp only [List.flatten_cons, List.countP_append, List.map_cons,
        List.sum_cons, hR, ih hF]

theorem sum_map_ite_one {α : Type} (P : α → Prop) [DecidablePred P] :
    ∀ l : List α, (l.map (fun c => if P c then 1 else 0)).sum =
      l.countP (fun c => decide (P c)) := by
  intro l
  induction l with
  | nil => rfl
  | cons x t ih =>
    simp only [List.map_cons, List.sum_cons, List.countP_cons, ih]
    by_cases h : P x
    · simp [h, Nat.add_comm]
    · simp [h]

theorem forall₂_fst_split1 {α β γ : Type} {R : (α × γ) → β → Prop} :
    ∀ (l : List (α × γ)) (outs : List β), List.Forall₂ R l outs →
      ∀ (u : List α) (x : α) (v : List α), l.map Prod.fst = u ++ x :: v →
      ∃ A oi B b l2, outs = A ++ oi :: B ∧ R (x, b) oi ∧
        List.Forall₂ R l2 B ∧ l2.map Prod.fst = v := by
  intro l
  induction l with
  | nil =>
    intro outs h u x v hm
    cases h
    simp at hm
  | cons cb t ih =>
    intro outs h u x v hm
    cases h with
    | @cons _ b0 _ outs0 hR hF =>
      cases u with
      | nil =>
        simp only [List.map_cons, List.nil_append] at hm
        injection hm with h1 h2
        have hx : (x, cb.2) = cb := by rw [← h1]
        exact ⟨[], b0, outs0, cb.2, t, rfl, hx ▸ hR, hF, h2⟩
      | cons u0 u' =>
        simp only [List.map_cons, List.cons_append] at hm
        injection hm with h1 h2
        obtain ⟨A, oi, B, b, l2, hout, hRx, hF2, hmap⟩ := ih outs0 hF u' x v h2
        exact ⟨b0 :: A, oi, B, b, l2, by simp [hout], hRx, hF2, hmap⟩

theorem visitChildrenF_sound (agents : List AgentSnapshot) (fuel : ℕ) :
    ∀ (l : List (AgentSnapshot × Bool)) (inh : String) (d : ℕ),
      (∀ cb ∈ l, (visitF agents fuel cb.1 inh cb.2 d).isSome = true) →
      ∃ outs, visitChildrenF agents fuel l inh d = some outs.flatten ∧
        List.Forall₂ (fun cb o => visitF agents fuel cb.1 inh cb.2 d = some o)
          l outs := by
  intro l
  induction l with
  | nil =>
    intro inh d h
    exact ⟨[], by simp [visitChildrenF], List.Forall₂.nil⟩
  | cons cb t ih =>
    intro inh d h
    obtain ⟨c, last⟩ := cb
    obtain ⟨o, ho⟩ :=
      Option.isSome_iff_exists.mp (h _ (List.mem_cons_self _ _))
    obtain ⟨outs, hv, hf⟩ :=
      ih inh d (fun x hx => h x (List.mem_cons_of_mem _ hx))
    refine ⟨o :: outs, ?_, List.Forall₂.cons ho hf⟩
    simp only [visitChildrenF]
    rw [ho, hv]
    simp

theorem AgentSeq_cons (node : FlatNode) (l : List FlatNode) :
    AgentSeq (node :: l) = node.agent :: AgentSeq l := rfl

theorem AgentSeq_flatten (L : List (List FlatNode)) :
    AgentSeq L.flatten = (L.map AgentSeq).flatten := by
  exact List.map_flatten FlatNode.agent L

theorem AgentSeq_sublist_flatten {o : List FlatNode} {L : List (List FlatNode)}
    (h : o ∈ L) : List.Sublist (AgentSeq o) (AgentSeq L.flatten) := by
  rw [AgentSeq_flatten]
  exact sublist_flatten_of_mem (List.mem_map_of_mem _ h)

theorem mem_AgentSeq_of_mem {node : FlatNode} {l : List FlatNode}
    (h : node ∈ l) : node.agent ∈ AgentSeq l :=
  List.mem_map_of_mem _ h

theorem mem_of_countP_id (out : List FlatNode) (x : AgentSnapshot)
    (h : out.countP (fun node => node.agent.id == x.id) = 1) :
    ∃ node ∈ out, node.agent.id = x.id := by
  have hpos : 0 < out.countP (fun node => node.agent.id == x.id) := by omega
  obtain ⟨node, hn, hp⟩ := List.countP_pos_iff.mp hpos
  exact ⟨node, hn, by simpa using hp⟩

/-- Core induction for the flattener: visiting an agent whose ancestor chain
reaches a root succeeds given enough fuel, and the output lists exactly the
agents whose chains pass through the visited agent, each once, in pre-order:
the visited agent first, then the children's subtrees in sibling order. -/
theorem visitF_main (agents : List AgentSnapshot)
    (hN : (agentIds agents).Nodup) :
    ∀ (fuel : ℕ) (a : AgentSnapshot) (la : List AgentSnapshot),
      a ∈ agents → chainOf agents agents.length a = some la →
      agents.length + 1 ≤ fuel + la.length →
      ∀ (inh : String) (isLast : Bool) (d : ℕ),
      ∃ out, visitF agents fuel a inh isLast d = some out ∧
        (∃ rest, out = FlatNode.mk a (inh ++
          (if d == 0 then "" else if isLast then "└─ " else "├─ ")) :: rest) ∧
        (∀ node ∈ out, node.agent ∈ agents ∧
          ∃ ln, chainOf agents agents.length node.agent = some ln ∧ a ∈ ln) ∧
        (∀ x ∈ agents, ∀ lx, chainOf agents agents.length x = some lx →
          out.countP (fun node => node.agent.id == x.id) =
            if a ∈ lx then 1 else 0) ∧
        (∀ p c, p ∈ agents → c ∈ agents → c.parentId = some p.id →
          ∀ lp, chainOf agents agents.length p = some lp → a ∈ lp →
          List.Sublist [p, c] (AgentSeq out)) ∧
        (∀ p, p ∈ agents →
          ∀ u ci v cj w, childrenOf agents p = u ++ ci :: (v ++ cj :: w) →
          ∀ dd ldd, dd ∈ agents → chainOf agents agents.length dd = some ldd →
          ci ∈ ldd → ∀ lp, chainOf agents agents.length p = some lp →
          a ∈ lp → List.Sublist [dd, cj] (AgentSeq out)) := by
  intro fuel
  induction fuel with
  | zero =>
    intro a la ha hch hfuel inh isLast d
    have hlen := chain_length_le agents agents.length a ha la hch
    exact absurd hfuel (by omega)
  | succ fuel ih =>
    intro a la ha hch hfuel inh isLast d
    have hla_len : la.length ≤ agents.length :=
      chain_length_le agents agents.length a ha la hch
    have hck : ∀ c ∈ childrenOf agents a,
        c ∈ agents ∧ c.parentId = some a.id ∧
        chainOf agents agents.length c = some (c :: la) := by
      intro c hc
      obtain ⟨hc1, hc2⟩ := (mem_childrenOf agents a c).mp hc
      exact ⟨hc1, hc2, chain_child agents hN c a ha hc2 agents.length la hch
        agents.length hla_len⟩
    have hchildO : ∀ cb : AgentSnapshot × Bool, cb.1 ∈ childrenOf agents a →
        ∀ o, visitF agents fuel cb.1
          (if d == 0 then "" else inh ++ (if isLast then "   " else "│  "))
          cb.2 (d + 1) = some o →
        (∀ node ∈ o, node.agent ∈ agents ∧
          ∃ ln, chainOf agents agents.length node.agent = some ln ∧
            cb.1 ∈ ln) ∧
        (∀ x ∈ agents, ∀ lx, chainOf agents agents.length x = some lx →
          o.countP (fun node => node.agent.id == x.id) =
            if cb.1 ∈ lx then 1 else 0) ∧
        (∀ p c, p ∈ agents → c ∈ agents → c.parentId = some p.id →
          ∀ lp, chainOf agents agents.length p = some lp → cb.1 ∈ lp →
          List.Sublist [p, c] (AgentSeq o)) ∧
        (∀ p, p ∈ agents →
          ∀ u ci v cj w, childrenOf agents p = u ++ ci :: (v ++ cj :: w) →
          ∀ dd ldd, dd ∈ agents → chainOf agents agents.length dd = some ldd →
          ci ∈ ldd → ∀ lp, chainOf agents agents.length p = some lp →
          cb.1 ∈ lp → List.Sublist [dd, cj] (AgentSeq o)) := by
      intro cb hc o hR
      obtain ⟨hc1, hc2, hc3⟩ := hck cb.1 hc
      obtain ⟨out', ho', _, hN1', hN2', hN3', hN4'⟩ := ih cb.1 (cb.1 :: la)
        hc1 hc3 (by simp only [List.length_cons]; omega)
        (if d == 0 then "" else inh ++ (if isLast then "   " else "│  "))
        cb.2 (d + 1)
      rw [hR] at ho'
      injection ho' with heq
      subst heq
      exact ⟨hN1', hN2', hN3', hN4'⟩
    obtain ⟨outs, hvc, hf2⟩ := visitChildrenF_sound agents fuel
      (withLast (childrenOf agents a))
      (if d == 0 then "" else inh ++ (if isLast then "   " else "│  "))
      (d + 1)
      (by
        intro cb hcb
        have hc := mem_withLast_fst _ cb hcb
        obtain ⟨hc1, hc2, hc3⟩ := hck cb.1 hc
        obtain ⟨o, ho, _⟩ := ih cb.1 (cb.1 :: la) hc1 hc3
          (by simp only [List.length_cons]; omega)
          (if d == 0 then "" else inh ++ (if isLast then "   " else "│  "))
          cb.2 (d + 1)
        rw [ho]
        rfl)
    refine ⟨FlatNode.mk a (inh ++
        (if d == 0 then "" else if isLast then "└─ " else "├─ ")) ::
        outs.flatten, ?_, ⟨outs.flatten, rfl⟩, ?_, ?_, ?_, ?_⟩
    · simp only [visitF]
      rw [hvc]
    · intro node hnode
      rcases List.mem_cons.mp hnode with rfl | hmem
      · exact ⟨ha, la, hch, chain_self_mem agents agents.length a la hch⟩
      · obtain ⟨o, ho_mem, hno⟩ := List.mem_flatten.mp hmem
        obtain ⟨cb, hcb, hR⟩ := forall₂_mem_right hf2 o ho_mem
        have hcch := mem_withLast_fst _ cb hcb
        obtain ⟨hN1', _, _, _⟩ := hchildO cb hcch o hR
        obtain ⟨hag, ln, hln, hcln⟩ := hN1' node hno
        refine ⟨hag, ln, hln, ?_⟩
        obtain ⟨hc1, hc2, hc3⟩ := hck cb.1 hcch
        obtain ⟨g, v, hgv, hsuf⟩ := chain_suffix_of_mem agents agents.length
          node.agent ln hln cb.1 hcln
        have hdet : cb.1 :: v = cb.1 :: la :=
          chain_det agents g agents.length cb.1 _ _ hgv hc3
        injection hdet with _ hv
        rw [hv] at hsuf
        exact hsuf.subset (List.mem_cons_of_mem _
          (chain_self_mem agents agents.length a la hch))
    · intro x hx lx hlx
      rw [List.countP_cons]
      have hflat : outs.flatten.countP (fun node => node.agent.id == x.id) =
          ((withLast (childrenOf agents a)).map
            (fun cb => if cb.1 ∈ lx then 1 else 0)).sum := by
        refine countP_flatten_forall₂ _ _ (forall₂_imp_of_mem ?_ hf2)
        intro cb o hcb hR
        exact (hchildO cb (mem_withLast_fst _ cb hcb) o hR).2.1 x hx lx hlx
      have hmapmap : ((withLast (childrenOf agents a)).map
          (fun cb => if cb.1 ∈ lx then 1 else 0)) =
          ((childrenOf agents a).map (fun c => if c ∈ lx then 1 else 0)) := by
        conv_rhs => rw [← withLast_map_fst (childrenOf agents a)]
        rw [List.map_map]
        rfl
      have hsum : ((childrenOf agents a).map
          (fun c => if c ∈ lx then 1 else 0)).sum =
          (childrenOf agents a).countP (fun c => decide (c ∈ lx)) :=
        sum_map_ite_one _ _
      rw [hflat, hmapmap, hsum]
      show (childrenOf agents a).countP (fun c => decide (c ∈ lx)) +
          (if a.id == x.id then 1 else 0) = if a ∈ lx then 1 else 0
      by_cases hid : a.id = x.id
      · have hax : a = x := id_inj agents hN a x ha hx hid
        have hlxla : lx = la := by
          rw [← hax] at hlx
          exact chain_det agents agents.length agents.length a _ _ hlx hch
        have hain : a ∈ lx := by
          rw [hlxla]
          exact chain_self_mem agents agents.length a la hch
        have hzero : (childrenOf agents a).countP
            (fun c => decide (c ∈ lx)) = 0 := by
          rw [List.countP_eq_zero]
          intro c hcmem hcin
          obtain ⟨hc1, hc2, hc3⟩ := hck c hcmem
          have hcx : c ∈ lx := of_decide_eq_true hcin
          rw [hlxla] at hcx
          exact chain_no_self_child agents hN agents.length a la ha hch
            c hc2 hcx
        rw [hzero, if_pos hain]
        simp [hid]
      · have h0 : (if a.id == x.id then 1 else 0) = 0 := by simp [hid]
        rw [h0]
        by_cases hain : a ∈ lx
        · rw [if_pos hain]
          have hne : a ≠ x := fun h => hid (by rw [h])
          obtain ⟨c0, hc0lx, hc0p⟩ := chain_step_down agents agents.length
            x lx hlx a hain hne
          have hc0ag : c0 ∈ agents :=
            chain_mem_agents agents agents.length x lx hx hlx c0 hc0lx
          have hc0ch : c0 ∈ childrenOf agents a :=
            (mem_childrenOf agents a c0).mpr ⟨hc0ag, hc0p⟩
          have huniq : ∀ b ∈ childrenOf agents a,
              decide (b ∈ lx) = true → b = c0 := by
            intro b hbch hbin
            obtain ⟨hb1, hb2, _⟩ := hck b hbch
            exact chain_child_unique agents hN agents.length x lx hlx
              a b c0 ha hb2 hc0p (of_decide_eq_true hbin) hc0lx
          have hone := countP_eq_one_of_unique (childrenOf agents a)
            (fun c => decide (c ∈ lx)) (childrenOf_nodup agents hN a)
            c0 hc0ch (decide_eq_true hc0lx) huniq
          rw [hone]
        · rw [if_neg hain]
          have hzero : (childrenOf agents a).countP
              (fun c => decide (c ∈ lx)) = 0 := by
            rw [List.countP_eq_zero]
            intro c hcmem hcin
            obtain ⟨hc1, hc2, hc3⟩ := hck c hcmem
            obtain ⟨g, la', hga, hsuf⟩ := chain_child_suffix agents hN
              agents.length x lx hlx a c ha hc2 (of_decide_eq_true hcin)
            exact hain (hsuf.subset (List.mem_cons_of_mem _
              (chain_self_mem agents g a la' hga)))
          rw [hzero]
    · intro p c hp hc hcp lp hlp halp
      rw [AgentSeq_cons]
      by_cases hpa : p = a
      · subst hpa
        have hcch : c ∈ childrenOf agents p :=
          (mem_childrenOf agents p c).mpr ⟨hc, hcp⟩
        obtain ⟨b, hb⟩ := mem_fst_withLast _ c hcch
        obtain ⟨o, homem, hR⟩ := forall₂_mem_left hf2 _ hb
        obtain ⟨hN1', hN2', _, _⟩ := hchildO (c, b) hcch o hR
        obtain ⟨hcc1, hcc2, hcc3⟩ := hck c hcch
        have h1 : o.countP (fun node => node.agent.id == c.id) = 1 :=
          (hN2' c hc (c :: la) hcc3).trans (if_pos (List.mem_cons_self _ _))
        obtain ⟨node, hnode, hidn⟩ := mem_of_countP_id o c h1
        have hceq : node.agent = c :=
          id_inj agents hN _ c (hN1' node hnode).1 hc hidn
        have hcin : c ∈ AgentSeq outs.flatten :=
          (AgentSeq_sublist_flatten homem).subset
            (hceq ▸ mem_AgentSeq_of_mem hnode)
        exact List.Sublist.cons₂ p (List.singleton_sublist.mpr hcin)
      · have hne : a ≠ p := fun h => hpa h.symm
        obtain ⟨c0, hc0lp, hc0p⟩ := chain_step_down agents agents.length
          p lp hlp a halp hne
        have hc0ag : c0 ∈ agents :=
          chain_mem_agents agents agents.length p lp hp hlp c0 hc0lp
        have hc0ch : c0 ∈ childrenOf agents a :=
          (mem_childrenOf agents a c0).mpr ⟨hc0ag, hc0p⟩
        obtain ⟨b, hb⟩ := mem_fst_withLast _ c0 hc0ch
        obtain ⟨o, homem, hR⟩ := forall₂_mem_left hf2 _ hb
        obtain ⟨_, _, hN3', _⟩ := hchildO (c0, b) hc0ch o hR
        have hsub : List.Sublist [p, c] (AgentSeq o) :=
          hN3' p c hp hc hcp lp hlp hc0lp
        exact (hsub.trans (AgentSeq_sublist_flatten homem)).cons _
    · intro p hp u ci v cj w hsplit dd ldd hdd hldd hcidd lp hlp halp
      rw [AgentSeq_cons]
      by_cases hpa : p = a
      · subst hpa
        have hm1 : (withLast (childrenOf agents p)).map Prod.fst =
            u ++ ci :: (v ++ cj :: w) := by
          rw [withLast_map_fst]
          exact hsplit
        obtain ⟨A, oi, B, b1, l2, houts, hRi, hF2', hmap2⟩ :=
          forall₂_fst_split1 _ _ hf2 u ci (v ++ cj :: w) hm1
        obtain ⟨B1, oj, C, b2, l3, hB, hRj, _, _⟩ :=
          forall₂_fst_split1 _ _ hF2' v cj w hmap2
        have hcich : ci ∈ childrenOf agents p := by
          rw [hsplit]
          simp
        have hcjch : cj ∈ childrenOf agents p := by
          rw [hsplit]
          simp
        obtain ⟨hN1i, hN2i, _, _⟩ := hchildO (ci, b1) hcich oi hRi
        obtain ⟨hN1j, hN2j, _, _⟩ := hchildO (cj, b2) hcjch oj hRj
        have h1 : oi.countP (fun node => node.agent.id == dd.id) = 1 :=
          (hN2i dd hdd ldd hldd).trans (if_pos hcidd)
        obtain ⟨nodei, hnodei, hidi⟩ := mem_of_countP_id oi dd h1
        have hddeq : nodei.agent = dd :=
          id_inj agents hN _ dd (hN1i nodei hnodei).1 hdd hidi
        obtain ⟨hcj1, hcj2, hcj3⟩ := hck cj hcjch
        have h2 : oj.countP (fun node => node.agent.id == cj.id) = 1 :=
          (hN2j cj hcj1 (cj :: la) hcj3).trans
            (if_pos (List.mem_cons_self _ _))
        obtain ⟨nodej, hnodej, hidj⟩ := mem_of_countP_id oj cj h2
        have hcjeq : nodej.agent = cj :=
          id_inj agents hN _ cj (hN1j nodej hnodej).1 hcj1 hidj
        have hpair : List.Sublist [dd, cj]
            ((A.map AgentSeq ++ AgentSeq oi ::
              (B1.map AgentSeq ++ AgentSeq oj :: C.map AgentSeq)).flatten) :=
          pair_sublist_flatten (hddeq ▸ mem_AgentSeq_of_mem hnodei)
            (hcjeq ▸ mem_AgentSeq_of_mem hnodej)
        have hflat2 : AgentSeq outs.flatten =
            (A.map AgentSeq ++ AgentSeq oi ::
              (B1.map AgentSeq ++ AgentSeq oj :: C.map AgentSeq)).flatten := by
          rw [houts, hB, AgentSeq_flatten]
          simp [List.map_append]
        rw [hflat2]
        exact hpair.cons _
      · have hne : a ≠ p := fun h => hpa h.symm
        obtain ⟨c0, hc0lp, hc0p⟩ := chain_step_down agents agents.length
          p lp hlp a halp hne
        have hc0ag : c0 ∈ agents :=
          chain_mem_agents agents agents.length p lp hp hlp c0 hc0lp
        have hc0ch : c0 ∈ childrenOf agents a :=
          (mem_childrenOf agents a c0).mpr ⟨hc0ag, hc0p⟩
        obtain ⟨b, hb⟩ := mem_fst_withLast _ c0 hc0ch
        obtain ⟨o, homem, hR⟩ := forall₂_mem_left hf2 _ hb
        obtain ⟨_, _, _, hN4'⟩ := hchildO (c0, b) hc0ch o hR
        have hsub := hN4' p hp u ci v cj w hsplit dd ldd hdd hldd hcidd
          lp hlp hc0lp
        exact (hsub.trans (AgentSeq_sublist_flatten homem)).cons _

theorem mem_rootsOf (agents : List AgentSnapshot) (a : AgentSnapshot) :
    a ∈ rootsOf agents ↔ a ∈ agents ∧ isRoot agents a = true := by
  unfold rootsOf
  exact List.mem_filter

theorem rootsOf_nodup (agents : List AgentSnapshot)
    (hN : (agentIds agents).Nodup) : (rootsOf agents).Nodup :=
  (agents_nodup agents hN).filter _

/-- A chain holds at most one root. -/
theorem chain_root_unique (agents : List AgentSnapshot) (f : ℕ)
    (x : AgentSnapshot) (lx : List AgentSnapshot)
    (hx : chainOf agents f x = some lx) (r1 r2 : AgentSnapshot)
    (h1 : r1 ∈ lx) (h2 : r2 ∈ lx) (hr1 : isRoot agents r1 = true)
    (hr2 : isRoot agents r2 = true) : r1 = r2 := by
  obtain ⟨g1, v1, hg1, hs1⟩ := chain_suffix_of_mem agents f x lx hx r1 h1
  obtain ⟨g2, v2, hg2, hs2⟩ := chain_suffix_of_mem agents f x lx hx r2 h2
  have e1 : r1 :: v1 = [r1] :=
    chain_det agents g1 g1 r1 _ _ hg1 (isRoot_chain agents g1 r1 hr1)
  have e2 : r2 :: v2 = [r2] :=
    chain_det agents g2 g2 r2 _ _ hg2 (isRoot_chain agents g2 r2 hr2)
  rw [e1] at hs1
  rw [e2] at hs2
  have := suffix_eq_of_length hs1 hs2 (by simp)
  injection this

/-- On a duplicate-free roster the top-level traversal of `buildFlat`
succeeds with the roster length as the recursion budget, one output block
per root. -/
theorem buildFlatOpt_sound (agents : List AgentSnapshot)
    (hN : (agentIds agents).Nodup) :
    ∃ outs, buildFlatOpt agents agents.length = some outs.flatten ∧
      List.Forall₂ (fun cb o =>
        visitF agents agents.length cb.1 "" cb.2 0 = some o)
        (withLast (rootsOf agents)) outs := by
  unfold buildFlatOpt
  apply visitChildrenF_sound
  intro cb hcb
  have hc := mem_withLast_fst _ cb hcb
  obtain ⟨h1, h2⟩ := (mem_rootsOf agents cb.1).mp hc
  obtain ⟨o, ho, _⟩ := visitF_main agents hN agents.length cb.1 [cb.1]
    h1 (isRoot_chain agents agents.length cb.1 h2) (by simp) "" cb.2 0
  rw [ho]
  rfl

/-- The properties of one root's block in the top-level traversal. -/
theorem visitRoot_props (agents : List AgentSnapshot)
    (hN : (agentIds agents).Nodup) (cb : AgentSnapshot × Bool)
    (hc : cb.1 ∈ rootsOf agents) (o : List FlatNode)
    (hRo : visitF agents agents.length cb.1 "" cb.2 0 = some o) :
    (∃ rest, o = FlatNode.mk cb.1 "" :: rest) ∧
    (∀ node ∈ o, node.agent ∈ agents ∧
      ∃ ln, chainOf agents agents.length node.agent = some ln ∧ cb.1 ∈ ln) ∧
    (∀ x ∈ agents, ∀ lx, chainOf agents agents.length x = some lx →
      o.countP (fun node => node.agent.id == x.id) =
        if cb.1 ∈ lx then 1 else 0) ∧
    (∀ p c, p ∈ agents → c ∈ agents → c.parentId = some p.id →
      ∀ lp, chainOf agents agents.length p = some lp → cb.1 ∈ lp →
      List.Sublist [p, c] (AgentSeq o)) ∧
    (∀ p, p ∈ agents → ∀ u ci v cj w,
      childrenOf agents p = u ++ ci :: (v ++ cj :: w) →
      ∀ dd ldd, dd ∈ agents → chainOf agents agents.length dd = some ldd →
      ci ∈ ldd → ∀ lp, chainOf agents agents.length p = some lp →
      cb.1 ∈ lp → List.Sublist [dd, cj] (AgentSeq o)) := by
  obtain ⟨h1, h2⟩ := (mem_rootsOf agents cb.1).mp hc
  obtain ⟨out', ho', hhead, hN1', hN2', hN3', hN4'⟩ := visitF_main agents hN
    agents.length cb.1 [cb.1] h1 (isRoot_chain agents agents.length cb.1 h2)
    (by simp) "" cb.2 0
  rw [hRo] at ho'
  injection ho' with heq
  subst heq
  exact ⟨hhead, hN1', hN2', hN3', hN4'⟩

/-- C5 (amended): on rosters with pairwise-distinct ids in which every
agent's parent chain reaches a root, `buildFlat` (source lines 438-453)
yields exactly one entry per agent; every child's entry comes after its
parent's and every entry of an earlier sibling's subtree comes before the
later sibling's entry (pre-order); and every agent whose parent id is
absent or unknown appears as a root entry with the empty prefix. -/
theorem buildFlat_preorder (agents : List AgentSnapshot)
    (hN : (agentIds agents).Nodup)
    (hR : ∀ x ∈ agents, (chainOf agents agents.length x).isSome = true) :
    (∀ node ∈ buildFlat agents, node.agent ∈ agents) ∧
    (∀ x ∈ agents,
      (buildFlat agents).countP (fun node => node.agent.id == x.id) = 1) ∧
    (∀ p c, p ∈ agents → c ∈ agents → c.parentId = some p.id →
      List.Sublist [p, c] (AgentSeq (buildFlat agents))) ∧
    (∀ p ∈ agents, ∀ u ci v cj w,
      childrenOf agents p = u ++ ci :: (v ++ cj :: w) →
      ∀ dd ldd, dd ∈ agents → chainOf agents agents.length dd = some ldd →
      ci ∈ ldd → List.Sublist [dd, cj] (AgentSeq (buildFlat agents))) ∧
    (∀ a ∈ agents, isRoot agents a = true →
      FlatNode.mk a "" ∈ buildFlat agents) := by
  obtain ⟨outs, hvc, hf2⟩ := buildFlatOpt_sound agents hN
  have hbf : buildFlat agents = outs.flatten := by
    unfold buildFlat
    rw [hvc]
    rfl
  rw [hbf]
  refine ⟨?_, ?_, ?_, ?_, ?_⟩
  · intro node hnode
    obtain ⟨o, homem, hno⟩ := List.mem_flatten.mp hnode
    obtain ⟨cb, hcb, hRo⟩ := forall₂_mem_right hf2 o homem
    obtain ⟨_, hN1', _, _, _⟩ :=
      visitRoot_props agents hN cb (mem_withLast_fst _ cb hcb) o hRo
    exact (hN1' node hno).1
  · intro x hx
    obtain ⟨lx, hlx⟩ := Option.isSome_iff_exists.mp (hR x hx)
    have hflat : outs.flatten.countP (fun node => node.agent.id == x.id) =
        ((withLast (rootsOf agents)).map
          (fun cb => if cb.1 ∈ lx then 1 else 0)).sum := by
      refine countP_flatten_forall₂ _ _ (forall₂_imp_of_mem ?_ hf2)
      intro cb o hcb hRo
      obtain ⟨_, _, hN2', _, _⟩ :=
        visitRoot_props agents hN cb (mem_withLast_fst _ cb hcb) o hRo
      exact hN2' x hx lx hlx
    have hmapmap : ((withLast (rootsOf agents)).map
        (fun cb => if cb.1 ∈ lx then 1 else 0)) =
        ((rootsOf agents).map (fun c => if c ∈ lx then 1 else 0)) := by
      conv_rhs => rw [← withLast_map_fst (rootsOf agents)]
      rw [List.map_map]
      rfl
    have hsum : ((rootsOf agents).map
        (fun c => if c ∈ lx then 1 else 0)).sum =
        (rootsOf agents).countP (fun c => decide (c ∈ lx)) :=
      sum_map_ite_one _ _
    rw [hflat, hmapmap, hsum]
    obtain ⟨l0, r, hl0, hrroot, _⟩ :=
      chain_last_root agents agents.length x lx hlx
    have hrlx : r ∈ lx := by
      rw [hl0]
      simp
    have hrag : r ∈ agents :=
      chain_mem_agents agents agents.length x lx hx hlx r hrlx
    have hrmem : r ∈ rootsOf agents :=
      (mem_rootsOf agents r).mpr ⟨hrag, hrroot⟩
    refine countP_eq_one_of_unique _ _ (rootsOf_nodup agents hN) r hrmem
      (decide_eq_true hrlx) ?_
    intro b hb hbin
    obtain ⟨hb1, hb2⟩ := (mem_rootsOf agents b).mp hb
    exact chain_root_unique agents agents.length x lx hlx b r
      (of_decide_eq_true hbin) hrlx hb2 hrroot
  · intro p c hp hc hcp
    obtain ⟨lp, hlp⟩ := Option.isSome_iff_exists.mp (hR p hp)
    obtain ⟨l0, r, hl0, hrroot, _⟩ :=
      chain_last_root agents agents.length p lp hlp
    have hrlp : r ∈ lp := by
      rw [hl0]
      simp
    have hrag : r ∈ agents :=
      chain_mem_agents agents agents.length p lp hp hlp r hrlp
    have hrmem : r ∈ rootsOf agents :=
      (mem_rootsOf agents r).mpr ⟨hrag, hrroot⟩
    obtain ⟨b, hb⟩ := mem_fst_withLast _ r hrmem
    obtain ⟨o, homem, hRo⟩ := forall₂_mem_left hf2 _ hb
    obtain ⟨_, _, _, hN3', _⟩ := visitRoot_props agents hN (r, b) hrmem o hRo
    exact (hN3' p c hp hc hcp lp hlp hrlp).trans
      (AgentSeq_sublist_flatten homem)
  · intro p hp u ci v cj w hsplit dd ldd hdd hldd hcidd
    obtain ⟨lp, hlp⟩ := Option.isSome_iff_exists.mp (hR p hp)
    obtain ⟨l0, r, hl0, hrroot, _⟩ :=
      chain_last_root agents agents.length p lp hlp
    have hrlp : r ∈ lp := by
      rw [hl0]
      simp
    have hrag : r ∈ agents :=
      chain_mem_agents agents agents.length p lp hp hlp r hrlp
    have hrmem : r ∈ rootsOf agents :=
      (mem_rootsOf agents r).mpr ⟨hrag, hrroot⟩
    obtain ⟨b, hb⟩ := mem_fst_withLast _ r hrmem
    obtain ⟨o, homem, hRo⟩ := forall₂_mem_left hf2 _ hb
    obtain ⟨_, _, _, _, hN4'⟩ := visitRoot_props agents hN (r, b) hrmem o hRo
    exact (hN4' p hp u ci v cj w hsplit dd ldd hdd hldd hcidd lp hlp
      hrlp).trans (AgentSeq_sublist_flatten homem)
  · intro a ha haroot
    have hamem : a ∈ rootsOf agents := (mem_rootsOf agents a).mpr ⟨ha, haroot⟩
    obtain ⟨b, hb⟩ := mem_fst_withLast _ a hamem
    obtain ⟨o, homem, hRo⟩ := forall₂_mem_left hf2 _ hb
    obtain ⟨⟨rest, hrest⟩, _, _, _, _⟩ :=
      visitRoot_props agents hN (a, b) hamem o hRo
    refine List.mem_flatten.mpr ⟨o, homem, ?_⟩
    rw [hrest]
    exact List.mem_cons_self _ _

/-- A root agent (no parent id). -/
def agR : AgentSnapshot :=
  { id := 1, status := .active, parentId := none, lastActivityAt := 0
    toolStartedAt := none, turnCount := none, costUsd := none
    errorCount := none, errorStreak := none, ctxPct := none, context := none }

/-- A child of `agR`. -/
def agC : AgentSnapshot := { agR with id := 2, parentId := some 1 }

/-- A grandchild (child of `agC`). -/
def agG : AgentSnapshot := { agR with id := 3, parentId := some 2 }

/-- One half of a two-agent parent cycle (id 1, parent id 2). -/
def agX : AgentSnapshot := { agR with id := 1, parentId := some 2 }

/-- The other half of the cycle (id 2, parent id 1). -/
def agY : AgentSnapshot := { agR with id := 2, parentId := some 1 }

/-- Witness for C5 at the three-agent chain roster root → child →
grandchild, discharging both roster hypotheses by computation. -/
theorem buildFlat_preorder_witness :
    (agentIds [agR, agC, agG]).Nodup ∧
    (∀ x ∈ [agR, agC, agG],
      (chainOf [agR, agC, agG] (List.length [agR, agC, agG]) x).isSome =
        true) ∧
    ((∀ node ∈ buildFlat [agR, agC, agG], node.agent ∈ [agR, agC, agG]) ∧
     (∀ x ∈ [agR, agC, agG], (buildFlat [agR, agC, agG]).countP
        (fun node => node.agent.id == x.id) = 1) ∧
     (∀ p c, p ∈ [agR, agC, agG] → c ∈ [agR, agC, agG] →
        c.parentId = some p.id →
        List.Sublist [p, c] (AgentSeq (buildFlat [agR, agC, agG]))) ∧
     (∀ p ∈ [agR, agC, agG], ∀ u ci v cj w,
        childrenOf [agR, agC, agG] p = u ++ ci :: (v ++ cj :: w) →
        ∀ dd ldd, dd ∈ [agR, agC, agG] →
        chainOf [agR, agC, agG] (List.length [agR, agC, agG]) dd = some ldd →
        ci ∈ ldd →
        List.Sublist [dd, cj] (AgentSeq (buildFlat [agR, agC, agG]))) ∧
     (∀ a ∈ [agR, agC, agG], isRoot [agR, agC, agG] a = true →
        FlatNode.mk a "" ∈ buildFlat [agR, agC, agG])) :=
  ⟨by decide, by decide, buildFlat_preorder [agR, agC, agG]
    (by decide) (by decide)⟩

/-- C5 counterexample: on the two-agent parent cycle neither agent ever
becomes a root, so `buildFlat` emits no entry at all for a roster agent —
the unconditional "exactly one entry per agent" fails. -/
theorem buildFlat_preorder_cx :
    agX ∈ [agX, agY] ∧
    (buildFlat [agX, agY]).countP
      (fun node => node.agent.id == agX.id) = 0 := by
  constructor
  · exact List.mem_cons_self _ _
  · have h1 : buildFlatOpt [agX, agY] 2 = some [] := by
      unfold buildFlatOpt
      rw [show rootsOf [agX, agY] = [] from by decide]
      simp [withLast, visitChildrenF]
    unfold buildFlat
    rw [show List.length [agX, agY] = 2 from rfl, h1]
    rfl

/-- C10 (amended): on a roster with pairwise-distinct ids the flattener
terminates — the explicit recursion budget `agents.length` suffices — and
agents on a parent cycle, whose parent links never reach a root, produce no
output entries instead of recursing forever. -/
theorem buildFlat_terminates (agents : List AgentSnapshot)
    (hN : (agentIds agents).Nodup) :
    (buildFlatOpt agents agents.length).isSome = true ∧
    ∀ x ∈ agents, chainOf agents agents.length x = none →
      ∀ node ∈ buildFlat agents, node.agent ≠ x := by
  obtain ⟨outs, hvc, hf2⟩ := buildFlatOpt_sound agents hN
  constructor
  · rw [hvc]
    rfl
  · intro x hx hnone node hnode hne
    have hbf : buildFlat agents = outs.flatten := by
      unfold buildFlat
      rw [hvc]
      rfl
    rw [hbf] at hnode
    obtain ⟨o, homem, hno⟩ := List.mem_flatten.mp hnode
    obtain ⟨cb, hcb, hRo⟩ := forall₂_mem_right hf2 o homem
    obtain ⟨_, hN1', _, _, _⟩ :=
      visitRoot_props agents hN cb (mem_withLast_fst _ cb hcb) o hRo
    obtain ⟨_, ln, hln, _⟩ := hN1' node hno
    rw [hne, hnone] at hln
    exact Option.noConfusion hln

/-- Witness for C10 at the distinct-id parent cycle: the traversal
terminates and the two cycle agents yield no entries. -/
theorem buildFlat_terminates_witness :
    (agentIds [agX, agY]).Nodup ∧
    ((buildFlatOpt [agX, agY] (List.length [agX, agY])).isSome = true ∧
     ∀ x ∈ [agX, agY],
       chainOf [agX, agY] (List.length [agX, agY]) x = none →
       ∀ node ∈ buildFlat [agX, agY], node.agent ≠ x) :=
  ⟨by decide, buildFlat_terminates [agX, agY] (by decide)⟩

/-- With the duplicated id 1, visiting either cycle member recurses
forever: `agY`'s only child is `agX` and `agX`'s only child is `agY`
(children are matched by parent id, and both ids resolve). -/
theorem visitF_dup_none :
    ∀ fuel : ℕ, ∀ (inh : String) (isLast : Bool) (d : ℕ),
      visitF [agR, agY, agX] fuel agY inh isLast d = none ∧
      visitF [agR, agY, agX] fuel agX inh isLast d = none := by
  intro fuel
  induction fuel with
  | zero =>
    intro inh isLast d
    exact ⟨by simp [visitF], by simp [visitF]⟩
  | succ fuel ih =>
    intro inh isLast d
    constructor
    · simp only [visitF]
      rw [show childrenOf [agR, agY, agX] agY = [agX] from by decide]
      simp only [withLast, visitChildrenF]
      rw [(ih _ _ _).2]
    · simp only [visitF]
      rw [show childrenOf [agR, agY, agX] agX = [agY] from by decide]
      simp only [withLast, visitChildrenF]
      rw [(ih _ _ _).1]

/-- C10 counterexample: a roster with a duplicated id makes the flatten
recursion cycle between two agents, so no finite call-stack budget lets it
return — the JavaScript original overflows the stack on this roster. -/
theorem buildFlat_terminates_cx :
    ¬ ∃ fuel, (buildFlatOpt [agR, agY, agX] fuel).isSome = true := by
  rintro ⟨fuel, hf⟩
  have hagR : ∀ (f : ℕ) (inh : String) (isLast : Bool) (d : ℕ),
      visitF [agR, agY, agX] f agR inh isLast d = none := by
    intro f
    cases f with
    | zero =>
      intro inh isLast d
      simp [visitF]
    | succ f =>
      intro inh isLast d
      simp only [visitF]
      rw [show childrenOf [agR, agY, agX] agR = [agY] from by decide]
      simp only [withLast, visitChildrenF]
      rw [(visitF_dup_none f _ _ _).1]
  have hopt : buildFlatOpt [agR, agY, agX] fuel = none := by
    unfold buildFlatOpt
    rw [show rootsOf [agR, agY, agX] = [agR] from by decide]
    simp only [withLast, visitChildrenF]
    rw [hagR fuel _ _ _]
  rw [hopt] at hf
  simp at hf
